import Mathlib

/-!
Verification of the dspp digital-signal-processing library.

The development shallowly embeds the C++ sources into Lean:

* `include/util.hpp`  — the limited-range complex multiplication `mul`;
* `include/fft.hpp`   — the `Radix4` recursive butterfly engine, the `twiddle4`
  tables, the `BitReverse` pattern computation and the `FFT` reindex/dft/idft
  entry points;
* `include/dspp/fft.hpp` — the `powcheck` power-of-two assertion;
* `include/dspp/window.hpp` — the window-function family;
* `include/dspp/mixer.hpp`  — the NCO `Mixer`.

Machine floating point (`float`/`double`) is modelled by exact real arithmetic,
as the specification's testable properties direct; `size_t` loop arithmetic is
modelled by `ℕ` and buffers by functions `ℕ → ℂ` (an in-place routine returns
the new buffer contents and leaves indices outside `[0, N)` untouched).
-/

set_option autoImplicit false

namespace Dspp

open Complex Real

noncomputable section

/-! ## util.hpp -/

/-- Limited range (fast) multiplication of complex numbers, from `util.hpp`:
`mul(z, w) = (z.re*w.re - z.im*w.im, z.im*w.re + z.re*w.im)`. -/
def mul (z w : ℂ) : ℂ :=
  ⟨z.re * w.re - z.im * w.im, z.im * w.re + z.re * w.im⟩

theorem mul_eq_mul (z w : ℂ) : mul z w = z * w := by
  apply Complex.ext <;> (simp [mul, Complex.mul_re, Complex.mul_im]; try ring)

/-! ## fft.hpp: the direction helper of `Radix4` -/

/-- Simplified multiplication for direction product, from `Radix4<T,N,D>`:
`if (D>0) return (-z.imag(), z.real()); else return (z.imag(), -z.real());`. -/
def direction (D : ℤ) (z : ℂ) : ℂ :=
  if D > 0 then ⟨-z.im, z.re⟩ else ⟨z.im, -z.re⟩

theorem direction_eq_mul_I (D : ℤ) (hD : D = 1 ∨ D = -1) (z : ℂ) :
    direction D z = (D : ℂ) * I * z := by
  rcases hD with h | h <;> subst h <;>
    apply Complex.ext <;>
    simp [direction, Complex.mul_re, Complex.mul_im]

/-! ## fft.hpp: twiddle factors -/

/-- Twiddle factor computation from `fft.hpp`: `twiddle4(a, n, d)` returns a
vector of `n/4` complex values; `theta = two_pi*d/n`, `phi = theta*a*i`,
entry `i` is `(cos(phi), sin(phi))`. -/
def twiddle4 (a : ℝ) (n : ℕ) (d : ℤ) : List ℂ :=
  (List.range (n / 4)).map fun i : ℕ =>
    ⟨Real.cos (2 * π * d / n * a * (i : ℝ)), Real.sin (2 * π * d / n * a * (i : ℝ))⟩

/-- Static twiddle table `t1` of `Radix4<T,N,D>`: `twiddle4(1, N, D)`. -/
def Radix4.t1 (N : ℕ) (D : ℤ) : List ℂ := twiddle4 1 N D

/-- Static twiddle table `t2` of `Radix4<T,N,D>`: `twiddle4(2, N, D)`. -/
def Radix4.t2 (N : ℕ) (D : ℤ) : List ℂ := twiddle4 2 N D

/-- Static twiddle table `t3` of `Radix4<T,N,D>`: `twiddle4(3, N, D)`. -/
def Radix4.t3 (N : ℕ) (D : ℤ) : List ℂ := twiddle4 3 N D

/-! ## dspp/fft.hpp: the power-of-two precondition -/

end

/-- The `powcheck` assertion of `FFT_Impl` (dspp/fft.hpp):
`assert((n>=2) && !(n & (n-1)))`. -/
def powcheck (n : ℕ) : Bool :=
  decide (2 ≤ n) && (n &&& (n - 1) == 0)

/-- The compile-time size check of `FFT<T,N>` (fft.hpp):
`static_assert((N > 1) & !(N & (N - 1)), ...)`. -/
def sizeCheck (N : ℕ) : Bool :=
  decide (1 < N) && (N &&& (N - 1) == 0)

/-! Bit-level facts about `n &&& (n - 1)`. -/

theorem land_two_mul_two_mul (a b : ℕ) : (2 * a) &&& (2 * b) = 2 * (a &&& b) := by
  apply Nat.eq_of_testBit_eq
  intro i
  have h1 : 2 * a / 2 = a := by omega
  have h2 : 2 * b / 2 = b := by omega
  have h3 : 2 * (a &&& b) / 2 = (a &&& b) := by omega
  cases i with
  | zero =>
    simp [Nat.testBit_land, Nat.testBit_zero, Nat.mul_mod_right]
  | succ i =>
    rw [Nat.testBit_land, Nat.testBit_succ, Nat.testBit_succ, Nat.testBit_succ, h1, h2, h3,
      Nat.testBit_land]

theorem land_two_mul_add_one_two_mul (a b : ℕ) :
    (2 * a + 1) &&& (2 * b) = 2 * (a &&& b) := by
  apply Nat.eq_of_testBit_eq
  intro i
  have h1 : (2 * a + 1) / 2 = a := by omega
  have h2 : 2 * b / 2 = b := by omega
  have h3 : 2 * (a &&& b) / 2 = (a &&& b) := by omega
  cases i with
  | zero =>
    simp [Nat.testBit_land, Nat.testBit_zero, Nat.mul_mod_right]
  | succ i =>
    rw [Nat.testBit_land, Nat.testBit_succ, Nat.testBit_succ, Nat.testBit_succ, h1, h2, h3,
      Nat.testBit_land]

theorem land_two_mul_two_mul_add_one (a b : ℕ) :
    (2 * a) &&& (2 * b + 1) = 2 * (a &&& b) := by
  apply Nat.eq_of_testBit_eq
  intro i
  have h1 : 2 * a / 2 = a := by omega
  have h2 : (2 * b + 1) / 2 = b := by omega
  have h3 : 2 * (a &&& b) / 2 = (a &&& b) := by omega
  cases i with
  | zero =>
    simp [Nat.testBit_land, Nat.testBit_zero, Nat.mul_mod_right]
  | succ i =>
    rw [Nat.testBit_land, Nat.testBit_succ, Nat.testBit_succ, Nat.testBit_succ, h1, h2, h3,
      Nat.testBit_land]

/-- For `n ≥ 1`, the bit trick `n & (n-1) == 0` recognises exactly the powers
of two. -/
theorem land_pred_eq_zero_iff : ∀ n : ℕ, 1 ≤ n → (n &&& (n - 1) = 0 ↔ ∃ k, n = 2 ^ k) := by
  intro n
  induction n using Nat.strong_induction_on with
  | _ n ih =>
    intro hn
    rcases Nat.even_or_odd n with ⟨m, hm⟩ | ⟨m, hm⟩
    · -- n = 2m with m ≥ 1
      have hm1 : 1 ≤ m := by omega
      have hn2 : n = 2 * m := by omega
      subst hn2
      have hpred : 2 * m - 1 = 2 * (m - 1) + 1 := by omega
      rw [hpred, land_two_mul_two_mul_add_one]
      have ihm := ih m (by omega) hm1
      constructor
      · intro h
        have hm0 : m &&& (m - 1) = 0 := by omega
        obtain ⟨k, hk⟩ := ihm.mp hm0
        exact ⟨k + 1, by rw [hk]; ring⟩
      · intro ⟨k, hk⟩
        rcases k with _ | k
        · omega
        · have : m = 2 ^ k := by
            have : 2 * m = 2 * 2 ^ k := by rw [hk]; ring
            omega
          have := ihm.mpr ⟨k, this⟩
          omega
    · -- n = 2m + 1 odd
      have hn2 : n = 2 * m + 1 := by omega
      subst hn2
      rcases Nat.eq_zero_or_pos m with hm0 | hm1
      · subst hm0
        simp
        exact ⟨0, rfl⟩
      · have hpred : 2 * m + 1 - 1 = 2 * m := by omega
        have hself : m &&& m = m := by simp
        rw [hpred, land_two_mul_add_one_two_mul, hself]
        constructor
        · intro h; omega
        · intro ⟨k, hk⟩
          rcases k with _ | k
          · omega
          · exfalso
            have : 2 * m + 1 = 2 * 2 ^ k := by rw [hk]; ring
            omega

/-- Claim C9: the native power-of-two path's precondition check (`powcheck` in
`FFT_Impl`, and the `static_assert` of `FFT<T,N>`) fails exactly on sizes that
are not powers of two or are `≤ 1`, and passes on every power of two `≥ 2`. -/
theorem C9_powcheck (n : ℕ) :
    (powcheck n = true ↔ 2 ≤ n ∧ ∃ k, n = 2 ^ k) ∧ sizeCheck n = powcheck n := by
  constructor
  · unfold powcheck
    simp only [Bool.and_eq_true, decide_eq_true_eq, beq_iff_eq]
    constructor
    · rintro ⟨h1, h2⟩
      exact ⟨h1, (land_pred_eq_zero_iff n (by omega)).mp h2⟩
    · rintro ⟨h1, h2⟩
      exact ⟨h1, (land_pred_eq_zero_iff n (by omega)).mpr h2⟩
  · unfold powcheck sizeCheck
    have h : decide (1 < n) = decide (2 ≤ n) := by
      simp only [decide_eq_decide]
      omega
    rw [h]

/-! ## Claim C2: the rotate90 convention of the butterfly -/

/-- Counterexample to claim C2 as stated: in the forward direction (`D = -1`,
as instantiated by `FFT::dft` via `Radix4<T,N,-1>`), `rotate90` does not map
`(x, y)` to `(-y, x)`: at the input `(1, 2)` the code produces `(2, -1)`. -/
theorem C2_rotate90_counterexample :
    ¬ (direction (-1) ⟨1, 2⟩ = (⟨-2, 1⟩ : ℂ)) := by
  have hv : direction (-1) ⟨1, 2⟩ = (⟨2, -1⟩ : ℂ) := by simp [direction]
  rw [hv]
  intro h
  have h2 := congrArg Complex.re h
  norm_num at h2

/-! ## dspp/mixer.hpp: the numerically controlled oscillator -/

/-- The `FIXUP_RATE` mask of `Mixer`: `(1 << 4) - 1`. -/
def FIXUP_RATE : ℕ := (1 <<< 4) - 1

/-- The `Mixer` state: sample rate, mix frequency, the current NCO phasor and
the per-sample clock increment (mixer.hpp). -/
structure Mixer where
  rate : ℝ
  freq : ℝ
  nco : ℂ
  clk : ℂ

noncomputable section

/-- Mixer's `compute_clk`: `inc = two_pi * freq / rate; clk = (cos(inc), sin(inc))`. -/
def compute_clk (rate freq : ℝ) : ℂ :=
  ⟨Real.cos (2 * π * freq / rate), Real.sin (2 * π * freq / rate)⟩

/-- Mixer's constructor: `nco = (1, 0)` and `compute_clk()`. -/
def Mixer.init (rate freq : ℝ) : Mixer :=
  { rate := rate, freq := freq, nco := ⟨1, 0⟩, clk := compute_clk rate freq }

/-- The loop body of `Mixer::operator()`: the counter is incremented, every
`FIXUP_RATE+1` samples the NCO is renormalised with
`gain = 2 - (nco.re^2 + nco.im^2)`, then `nco *= clk` and `d *= nco`.
Returns the transformed samples (the state threads through the fold). -/
def mixerRun (clk : ℂ) : ℕ → ℂ → List ℂ → List ℂ
  | _, _, [] => []
  | cnt, nco, d :: rest =>
    let cnt' := cnt + 1
    let nco1 := if cnt' &&& FIXUP_RATE == 0 then
        let gain : ℝ := 2 - (nco.re * nco.re + nco.im * nco.im)
        (⟨nco.re * gain, nco.im * gain⟩ : ℂ)
      else nco
    let nco2 := nco1 * clk
    (d * nco2) :: mixerRun clk cnt' nco2 rest

/-- Mixer's `operator()`: the fixup counter starts at `FIXUP_RATE`. -/
def Mixer.apply (mx : Mixer) (data : List ℂ) : List ℂ :=
  mixerRun mx.clk FIXUP_RATE mx.nco data

end

theorem mixerRun_one (data : List ℂ) : ∀ cnt : ℕ, mixerRun 1 cnt 1 data = data := by
  induction data with
  | nil => intro cnt; rfl
  | cons d rest ih =>
    intro cnt
    rw [mixerRun]
    have hfix : (if (cnt + 1) &&& FIXUP_RATE == 0 then
        let gain : ℝ := 2 - ((1 : ℂ).re * (1 : ℂ).re + (1 : ℂ).im * (1 : ℂ).im)
        (⟨(1 : ℂ).re * gain, (1 : ℂ).im * gain⟩ : ℂ)
      else (1 : ℂ)) = 1 := by
      split
      · apply Complex.ext <;> (simp; try norm_num)
      · rfl
    simp only [hfix, mul_one, one_mul]
    rw [ih (cnt + 1)]

/-- Claim C10: a `Mixer` constructed with frequency `0` (at any sample rate) is
the identity on every buffer: the clock increment is exactly `(1, 0)` and
`operator()` leaves every sample unchanged (the NCO stays exactly `(1, 0)`,
the renormalisation gain being exactly `1`). -/
theorem C10_mixer_freq_zero (rate : ℝ) (data : List ℂ) :
    (Mixer.init rate 0).clk = 1 ∧ (Mixer.init rate 0).apply data = data := by
  have hclk : (Mixer.init rate 0).clk = 1 := by
    show compute_clk rate 0 = 1
    unfold compute_clk
    have harg : 2 * π * 0 / rate = 0 := by ring
    rw [harg]
    apply Complex.ext <;> simp
  refine ⟨hclk, ?_⟩
  show mixerRun (Mixer.init rate 0).clk FIXUP_RATE (Mixer.init rate 0).nco data = data
  rw [hclk]
  have hnco : (Mixer.init rate 0).nco = 1 := by
    apply Complex.ext <;> simp [Mixer.init]
  rw [hnco]
  exact mixerRun_one data FIXUP_RATE

/-! ## Claim C3: twiddle table contents -/

theorem range_map_getD {α : Type} (n : ℕ) (f : ℕ → α) (i : ℕ) (d : α) (h : i < n) :
    ((List.range n).map f).getD i d = f i := by
  rw [List.getD_eq_getElem?_getD]
  simp [List.getElem?_map, List.getElem?_range, h]

theorem twiddle4_length (a : ℝ) (n : ℕ) (d : ℤ) : (twiddle4 a n d).length = n / 4 := by
  simp [twiddle4]

theorem twiddle4_getD (a : ℝ) (n : ℕ) (d : ℤ) (k : ℕ) (hk : k < n / 4) :
    (twiddle4 a n d).getD k 0 =
      ⟨Real.cos (2 * π * d / n * a * k), Real.sin (2 * π * d / n * a * k)⟩ := by
  unfold twiddle4
  exact range_map_getD _ _ _ _ hk

/-- Claim C3: for a power-of-two size `N ≥ 4` and direction `d ∈ {-1, +1}`,
the tables `t1`, `t2`, `t3` of `Radix4<T,N,d>` each hold exactly `N/4` entries,
and for harmonic `h = 1, 2, 3` the entry at index `k` is
`(cos(h*θ*k), sin(h*θ*k))` with `θ = 2π·d/N`. -/
theorem C3_twiddle_tables (N : ℕ) (p : ℕ) (hN : N = 2 ^ p) (h4 : 4 ≤ N)
    (d : ℤ) (hd : d = 1 ∨ d = -1) :
    ((Radix4.t1 N d).length = N / 4 ∧ (Radix4.t2 N d).length = N / 4 ∧
      (Radix4.t3 N d).length = N / 4) ∧
    ∀ k < N / 4,
      (Radix4.t1 N d).getD k 0 =
        ⟨Real.cos (1 * (2 * π * d / N) * k), Real.sin (1 * (2 * π * d / N) * k)⟩ ∧
      (Radix4.t2 N d).getD k 0 =
        ⟨Real.cos (2 * (2 * π * d / N) * k), Real.sin (2 * (2 * π * d / N) * k)⟩ ∧
      (Radix4.t3 N d).getD k 0 =
        ⟨Real.cos (3 * (2 * π * d / N) * k), Real.sin (3 * (2 * π * d / N) * k)⟩ := by
  constructor
  · exact ⟨twiddle4_length _ _ _, twiddle4_length _ _ _, twiddle4_length _ _ _⟩
  · intro k hk
    refine ⟨?_, ?_, ?_⟩
    · rw [Radix4.t1, twiddle4_getD _ _ _ _ hk]
      have h : 2 * π * (d : ℝ) / N * 1 * k = 1 * (2 * π * d / N) * k := by ring
      rw [h]
    · rw [Radix4.t2, twiddle4_getD _ _ _ _ hk]
      have h : 2 * π * (d : ℝ) / N * 2 * k = 2 * (2 * π * d / N) * k := by ring
      rw [h]
    · rw [Radix4.t3, twiddle4_getD _ _ _ _ hk]
      have h : 2 * π * (d : ℝ) / N * 3 * k = 3 * (2 * π * d / N) * k := by ring
      rw [h]

/-- Witness for C3 at `N = 8`, `d = -1`, `k = 1`. -/
theorem C3_twiddle_tables_witness :
    (8 : ℕ) = 2 ^ 3 ∧ (4 : ℕ) ≤ 8 ∧ ((-1 : ℤ) = 1 ∨ (-1 : ℤ) = -1) ∧
    (((Radix4.t1 8 (-1)).length = 8 / 4 ∧ (Radix4.t2 8 (-1)).length = 8 / 4 ∧
      (Radix4.t3 8 (-1)).length = 8 / 4) ∧
    ∀ k < 8 / 4,
      (Radix4.t1 8 (-1)).getD k 0 =
        ⟨Real.cos (1 * (2 * π * (-1 : ℤ) / 8) * k), Real.sin (1 * (2 * π * (-1 : ℤ) / 8) * k)⟩ ∧
      (Radix4.t2 8 (-1)).getD k 0 =
        ⟨Real.cos (2 * (2 * π * (-1 : ℤ) / 8) * k), Real.sin (2 * (2 * π * (-1 : ℤ) / 8) * k)⟩ ∧
      (Radix4.t3 8 (-1)).getD k 0 =
        ⟨Real.cos (3 * (2 * π * (-1 : ℤ) / 8) * k), Real.sin (3 * (2 * π * (-1 : ℤ) / 8) * k)⟩) :=
  ⟨by norm_num, by norm_num, by norm_num,
    C3_twiddle_tables 8 3 (by norm_num) (by norm_num) (-1) (by norm_num)⟩

/-! ## dspp/window.hpp: the window-function family

Each window is embedded as the coefficient value at index `k` of a window of
`size()` `n` applied to a container of ones (the code multiplies each element
by the formula's value, so on a container of ones the result is the formula).
`odd = size & 1` becomes `n % 2 = 1`, and the `++len` size adjustments are the
corresponding `if`s; `Tv` floating point arithmetic is exact real arithmetic.
-/

noncomputable section

/-- The `rect` window: `w(n) = 1`, the container is returned unchanged. -/
def rect (n : ℕ) (symm : Bool) (k : ℕ) : ℝ := 1

/-- The `triang` window (window.hpp). -/
def triang (n : ℕ) (symm : Bool) (k : ℕ) : ℝ :=
  let len1 : ℝ := if symm = false ∧ n % 2 = 0 then (n : ℝ) + 1 else (n : ℝ)
  let midm : ℝ := (len1 - 1) / 2
  let len2 : ℝ := if symm = false ∨ n % 2 = 1 then len1 + 1 else len1
  let midp : ℝ := len2 / 2
  1 - |((k : ℝ) - midm) / midp|

/-- The `bartlett` window (window.hpp); sizes `≤ 1` are left unchanged. -/
def bartlett (n : ℕ) (symm : Bool) (k : ℕ) : ℝ :=
  if 1 < n then
    let len1 : ℝ := if symm = false ∧ n % 2 = 0 then (n : ℝ) + 1 else (n : ℝ)
    let midm : ℝ := (len1 - 1) / 2
    1 - |((k : ℝ) - midm) / midm|
  else 1

/-- The `hann` window (window.hpp); `len = size() - 1`, incremented for
periodic windows of even size. -/
def hann (n : ℕ) (symm : Bool) (k : ℕ) : ℝ :=
  if 1 < n then
    let len : ℝ := if symm = false ∧ n % 2 = 0 then ((n : ℝ) - 1) + 1 else (n : ℝ) - 1
    0.5 - 0.5 * Real.cos (2 * π * k / len)
  else 1

/-- The `welch` window (window.hpp). -/
def welch (n : ℕ) (symm : Bool) (k : ℕ) : ℝ :=
  let len : ℝ := if symm = false ∧ n % 2 = 0 then (n : ℝ) + 1 else (n : ℝ)
  let midm : ℝ := (len - 1) / 2
  let midp : ℝ := (len + 1) / 2
  1 - (((k : ℝ) - midm) / midp) ^ (2 : ℕ)

/-- The `parzen` window (window.hpp). -/
def parzen (n : ℕ) (symm : Bool) (k : ℕ) : ℝ :=
  let len : ℝ := if symm = false ∧ n % 2 = 0 then (n : ℝ) + 1 else (n : ℝ)
  let half : ℝ := len / 2
  let quad : ℝ := half / 2
  let i : ℝ := |(k : ℝ) + 0.5 - half|
  if i ≤ quad then 1 - 6 * (i / half) ^ (2 : ℕ) + 6 * (i / half) ^ (3 : ℕ)
  else 2 * (1 - i / half) ^ (3 : ℕ)

/-- The `bohman` window (window.hpp). -/
def bohman (n : ℕ) (symm : Bool) (k : ℕ) : ℝ :=
  if 1 < n then
    let len : ℝ := if symm = false ∧ n % 2 = 0 then ((n : ℝ) - 1) + 1 else (n : ℝ) - 1
    let half : ℝ := len / 2
    let x : ℝ := |(k : ℝ) / half - 1|
    (1 - x) * Real.cos (π * x) + 1 / π * Real.sin (π * x)
  else 1

/-- The `blackman` window (window.hpp). -/
def blackman (n : ℕ) (symm : Bool) (k : ℕ) : ℝ :=
  if 1 < n then
    let len : ℝ := if symm = false ∧ n % 2 = 0 then (n : ℝ) + 1 else (n : ℝ)
    0.42 - 0.5 * Real.cos (2 * π * k / (len - 1)) + 0.08 * Real.cos (4 * π * k / (len - 1))
  else 1

/-- The `nuttall` window (window.hpp). -/
def nuttall (n : ℕ) (symm : Bool) (k : ℕ) : ℝ :=
  if 1 < n then
    let len : ℝ := if symm = false ∧ n % 2 = 0 then (n : ℝ) + 1 else (n : ℝ)
    0.355768 - 0.487396 * Real.cos (2 * π * k / (len - 1)) +
      0.144232 * Real.cos (4 * π * k / (len - 1)) -
      0.012604 * Real.cos (6 * π * k / (len - 1))
  else 1

/-- The `blackmannuttall` window (window.hpp). -/
def blackmannuttall (n : ℕ) (symm : Bool) (k : ℕ) : ℝ :=
  if 1 < n then
    let len : ℝ := if symm = false ∧ n % 2 = 0 then (n : ℝ) + 1 else (n : ℝ)
    0.3635819 - 0.4891775 * Real.cos (2 * π * k / (len - 1)) +
      0.1365995 * Real.cos (4 * π * k / (len - 1)) -
      0.0106411 * Real.cos (6 * π * k / (len - 1))
  else 1

/-- The `blackmanharris` window (window.hpp). -/
def blackmanharris (n : ℕ) (symm : Bool) (k : ℕ) : ℝ :=
  if 1 < n then
    let len : ℝ := if symm = false ∧ n % 2 = 0 then (n : ℝ) + 1 else (n : ℝ)
    0.35875 - 0.48829 * Real.cos (2 * π * k / (len - 1)) +
      0.14128 * Real.cos (4 * π * k / (len - 1)) -
      0.01168 * Real.cos (6 * π * k / (len - 1))
  else 1

/-- The `flattop` window (window.hpp). -/
def flattop (n : ℕ) (symm : Bool) (k : ℕ) : ℝ :=
  if 1 < n then
    let len : ℝ := if symm = false ∧ n % 2 = 0 then (n : ℝ) + 1 else (n : ℝ)
    0.21557895 - 0.41663158 * Real.cos (2 * π * k / (len - 1)) +
      0.277263158 * Real.cos (4 * π * k / (len - 1)) -
      0.083578947 * Real.cos (6 * π * k / (len - 1)) +
      0.006947368 * Real.cos (8 * π * k / (len - 1))
  else 1

/-- The `barthann` window (window.hpp). -/
def barthann (n : ℕ) (symm : Bool) (k : ℕ) : ℝ :=
  if 1 < n then
    let len : ℝ := if symm = false ∧ n % 2 = 0 then (n : ℝ) + 1 else (n : ℝ)
    let fac : ℝ := |(k : ℝ) / (len - 1) - 0.5|
    0.62 - 0.48 * fac + 0.38 * Real.cos (2 * π * fac)
  else 1

/-- The `hamming` window (window.hpp). -/
def hamming (n : ℕ) (symm : Bool) (k : ℕ) : ℝ :=
  if 1 < n then
    let len : ℝ := if symm = false ∧ n % 2 = 0 then (n : ℝ) + 1 else (n : ℝ)
    0.54 - 0.46 * Real.cos (2 * π * k / (len - 1))
  else 1

/-- The modified Bessel function `bessel::i0` (bessel.hpp), the polynomial
approximation used by the Kaiser window. -/
def bessel_i0 (x : ℝ) : ℝ :=
  let ax : ℝ := |x|
  if ax < 3.75 then
    let y : ℝ := (x / 3.75) * (x / 3.75)
    1.0 + y * (3.5156229 + y * (3.0899424 + y * (1.2067492 + y * (0.2659732 +
      y * (0.360768e-1 + y * 0.45813e-2)))))
  else
    let y : ℝ := 3.75 / ax
    Real.exp ax / Real.sqrt ax * (0.39894228 + y * (0.1328592e-1 + y * (0.225319e-2 +
      y * (-0.157565e-2 + y * (0.916281e-2 + y * (-0.2057706e-1 + y * (0.2635537e-1 +
      y * (-0.1647633e-1 + y * 0.392377e-2))))))))

/-- The `kaiser` window (window.hpp), with shape parameter `beta`. -/
def kaiser (n : ℕ) (beta : ℝ) (symm : Bool) (k : ℕ) : ℝ :=
  if 1 < n then
    let len : ℝ := if symm = false ∧ n % 2 = 0 then (n : ℝ) + 1 else (n : ℝ)
    let alpha : ℝ := (len - 1) / 2
    let d : ℝ := bessel_i0 beta
    bessel_i0 (beta * Real.sqrt (1 - (((k : ℝ) - alpha) / alpha) ^ (2 : ℕ))) / d
  else 1

/-- The `gaussian` window (window.hpp), with shape parameter `a`. -/
def gaussian (n : ℕ) (a : ℝ) (symm : Bool) (k : ℕ) : ℝ :=
  if 1 < n then
    let len : ℝ := if symm = false ∧ n % 2 = 0 then (n : ℝ) + 1 else (n : ℝ)
    let i : ℝ := ((k : ℝ) - (len - 1) / 2) * 2
    Real.exp (-0.5 * (a / len * i) ^ (2 : ℕ))
  else 1

/-- The C standard library `acosh`, used by the Chebyshev window:
`acosh x = log (x + sqrt (x^2 - 1))`. -/
def acosh (x : ℝ) : ℝ := Real.log (x + Real.sqrt (x ^ (2 : ℕ) - 1))

/-- The `chebyshev` window (window.hpp), with attenuation `att` in dB.  The
window builds a spectrum `k`, transforms it with `FFT::dft` when the length is
a power of two and with `FFT::czt` otherwise, and normalises by the (near-)DC
component; the two transforms are abstracted as the parameters `dftFn`/`cztFn`
(the engine itself is embedded and verified separately).  The cyclic output
index `k[n]` with `n` starting at `len/2 + 1` and wrapping to `0` at `len` is
written `(len/2 + 1 + k) % len`. -/
def chebyshev (dftFn cztFn : ℕ → (ℕ → ℂ) → ℕ → ℂ) (n : ℕ) (att : ℝ) (k : ℕ) : ℝ :=
  if 1 < n then
    let len := n
    let odd := n % 2 = 1
    let order : ℕ := len - 1
    let beta : ℝ := Real.cosh (1 / (order : ℝ) * acosh ((10 : ℝ) ^ (|att| / 20)))
    let kv : ℕ → ℂ := fun i =>
      let x0 : ℝ := beta * Real.cos (π * i / len)
      let x : ℝ :=
        if 1 < x0 then Real.cosh ((order : ℝ) * acosh x0)
        else if x0 < -1 then
          (1 - 2 * ((order % 2 : ℕ) : ℝ)) * Real.cosh ((order : ℝ) * acosh (-x0))
        else Real.cos ((order : ℝ) * Real.arccos x0)
      if odd then (x : ℂ) else (x : ℂ) * Complex.exp (Complex.I * ((π / len * i : ℝ) : ℂ))
    let tk : ℕ → ℂ := if len &&& (len - 1) = 0 then dftFn len kv else cztFn len kv
    let d : ℝ := if odd then (tk 0).re else (tk 1).re
    (tk ((len / 2 + 1 + k) % len)).re / d
  else 1

end

/-! ## Claim C8: every window is the constant 1 at size 1 -/

/-- Claim C8: every window function of the family (rect, triang, bartlett,
hann, welch, parzen, bohman, the blackman family, barthann, hamming, kaiser,
gaussian, chebyshev), applied to a container of size 1 holding the value 1,
yields the single coefficient exactly 1, for either value of the `symm` flag
and any shape parameter (and, for Chebyshev, any transform back end). -/
theorem C8_window_size_one (symm : Bool) (att beta a : ℝ)
    (dftFn cztFn : ℕ → (ℕ → ℂ) → ℕ → ℂ) :
    rect 1 symm 0 = 1 ∧ triang 1 symm 0 = 1 ∧ bartlett 1 symm 0 = 1 ∧
    hann 1 symm 0 = 1 ∧ welch 1 symm 0 = 1 ∧ parzen 1 symm 0 = 1 ∧
    bohman 1 symm 0 = 1 ∧ blackman 1 symm 0 = 1 ∧ nuttall 1 symm 0 = 1 ∧
    blackmannuttall 1 symm 0 = 1 ∧ blackmanharris 1 symm 0 = 1 ∧
    flattop 1 symm 0 = 1 ∧ barthann 1 symm 0 = 1 ∧ hamming 1 symm 0 = 1 ∧
    kaiser 1 beta symm 0 = 1 ∧ gaussian 1 a symm 0 = 1 ∧
    chebyshev dftFn cztFn 1 att 0 = 1 := by
  refine ⟨rfl, ?_, ?_, ?_, ?_, ?_, ?_, ?_, ?_, ?_, ?_, ?_, ?_, ?_, ?_, ?_, ?_⟩
  · unfold triang
    norm_num
  · unfold bartlett
    norm_num
  · unfold hann
    norm_num
  · unfold welch
    norm_num
  · unfold parzen
    norm_num
  · unfold bohman
    norm_num
  · unfold blackman
    norm_num
  · unfold nuttall
    norm_num
  · unfold blackmannuttall
    norm_num
  · unfold blackmanharris
    norm_num
  · unfold flattop
    norm_num
  · unfold barthann
    norm_num
  · unfold hamming
    norm_num
  · unfold kaiser
    norm_num
  · unfold gaussian
    norm_num
  · unfold chebyshev
    norm_num

/-! ## Claim C7: periodic windows versus truncated symmetric windows -/

/-- Counterexample to claim C7 as stated: for the odd length `N = 3` the
periodic Hann window does not equal the symmetric Hann window of length 4
truncated by one sample: at index 1 the code yields `1` versus `3/4`
(for odd sizes the `symm` flag does not change the window at all). -/
theorem C7_periodic_truncation_counterexample :
    ¬ (hann 3 false 1 = hann 4 true 1) := by
  have h1 : hann 3 false 1 = 1 := by
    unfold hann
    norm_num
  have h2 : hann 4 true 1 = 3 / 4 := by
    unfold hann
    norm_num
    have harg : 2 * π / 3 = π - π / 3 := by ring
    rw [harg, Real.cos_pi_sub, Real.cos_pi_div_three]
    norm_num
  rw [h1, h2]
  norm_num

/-- Claim C7 (amended): the truncation identity
`periodic(N)[k] = symmetric(N+1)[k]` holds for the even lengths `N` (shown for
the windows `hann` and `triang` cited by the claim); for odd lengths the
`symm` flag is ignored, so the periodic window equals the symmetric window of
the same length `N+1` here. -/
theorem C7_periodic_truncation_amended (n : ℕ) (hn : 1 ≤ n) (he : n % 2 = 0) (k : ℕ) :
    (hann n false k = hann (n + 1) true k ∧ triang n false k = triang (n + 1) true k) ∧
    (hann (n + 1) false k = hann (n + 1) true k ∧
      triang (n + 1) false k = triang (n + 1) true k) := by
  have hodd : (n + 1) % 2 = 1 := by omega
  refine ⟨⟨?_, ?_⟩, ?_, ?_⟩
  · unfold hann
    simp [show (1:ℕ) < n by omega, show (1:ℕ) < n + 1 by omega, he]
  · unfold triang
    simp [he, hodd]
  · unfold hann
    simp [hodd]
  · unfold triang
    simp [hodd]

/-- Witness for C7 (amended) at the even length `N = 2`, index `k = 1`. -/
theorem C7_periodic_truncation_amended_witness :
    (1 ≤ 2 ∧ 2 % 2 = 0) ∧
    ((hann 2 false 1 = hann 3 true 1 ∧ triang 2 false 1 = triang 3 true 1) ∧
    (hann 3 false 1 = hann 3 true 1 ∧ triang 3 false 1 = triang 3 true 1)) :=
  ⟨⟨by norm_num, by norm_num⟩, C7_periodic_truncation_amended 2 (by norm_num) (by norm_num) 1⟩

/-! ## Claim C6: the chirp-Z transform -/

noncomputable section

/-- Padded working size of the chirp-Z transform: the next power of two at
least `2n - 1`. -/
def cztM (n : ℕ) : ℕ := 2 ^ Nat.clog 2 (2 * n - 1)

/-- The chirp sequence `exp(-iπj²/n)` of Bluestein's algorithm. -/
def cztChirp (n : ℕ) (j : ℕ) : ℂ :=
  Complex.exp ((-(π * (j : ℝ) ^ (2 : ℕ) / n) : ℝ) * Complex.I)

/-- The cyclic chirp kernel of Bluestein's algorithm on the padded buffer:
`exp(iπm²/n)` near the front, mirrored near the back, zero in between. -/
def cztKernel (n : ℕ) (m : ℕ) : ℂ :=
  if m < n then Complex.exp (((π * (m : ℝ) ^ (2 : ℕ) / n) : ℝ) * Complex.I)
  else if cztM n - m < n then
    Complex.exp (((π * ((cztM n - m : ℕ) : ℝ) ^ (2 : ℕ) / n) : ℝ) * Complex.I)
  else 0

/-- Modelled from the spec: the sources under `src/` declare and call
`FFT::czt` (the Chebyshev window's non-power-of-two branch in window.hpp and
the czt correctness test), but the file implementing it is missing from the
sources.  Following §4.5 of the specification (Bluestein's algorithm:
multiply the input by a chirp sequence, convolve via zero-padded power-of-two
FFTs, multiply by the chirp again, extract the `n` outputs; the padded size is
the next power of two, at least `2n-1` per §9), `czt n` multiplies by the
chirp, cyclically convolves the zero-padded buffer of size `cztM n` against
the chirp kernel, multiplies by the chirp once more and keeps `n` entries.
The power-of-two FFT pair computes exactly this cyclic convolution in exact
arithmetic, so the convolution is embedded directly. -/
def czt (n : ℕ) (x : ℕ → ℂ) : ℕ → ℂ := fun k =>
  if k < n then
    cztChirp n k *
      ∑ j ∈ Finset.range (cztM n),
        (if j < n then x j * cztChirp n j else 0) *
          cztKernel n ((cztM n + k - j) % cztM n)
  else x k

end

theorem exp_I_mul_add (r1 r2 : ℝ) :
    Complex.exp ((r1 : ℂ) * Complex.I) * Complex.exp ((r2 : ℂ) * Complex.I) =
      Complex.exp (((r1 + r2 : ℝ) : ℂ) * Complex.I) := by
  rw [← Complex.exp_add]
  push_cast
  ring_nf

/-- Claim C6: for every positive length `n` (power of two or not) and every
buffer, `czt n` produces exactly the sequence the `n`-point reference
direct-summation DFT produces (exact arithmetic subsumes the floating-point
`epsilon * 128` tolerance). -/
theorem C6_czt_matches_dft (n : ℕ) (hn : 1 ≤ n) (x : ℕ → ℂ) (k : ℕ) (hk : k < n) :
    czt n x k =
      ∑ j ∈ Finset.range n,
        x j * Complex.exp ((-(2 * π * j * k / n) : ℝ) * Complex.I) := by
  have hM : 2 * n - 1 ≤ cztM n := Nat.le_pow_clog (by norm_num) _
  have hnM : n ≤ cztM n := by omega
  unfold czt
  rw [if_pos hk, Finset.mul_sum]
  rw [← Finset.sum_subset (Finset.range_subset.mpr hnM)
    (fun j _ hj => by rw [if_neg (by simpa using hj)]; ring)]
  refine Finset.sum_congr rfl fun j hj => ?_
  have hjn : j < n := Finset.mem_range.mp hj
  rw [if_pos hjn]
  rcases le_or_lt j k with hjk | hjk
  · -- j ≤ k: the kernel index reduces to k - j < n.
    have hr : (cztM n + k - j) % cztM n = k - j := by
      have h1 : cztM n + k - j = cztM n + (k - j) := by omega
      rw [h1, Nat.add_mod_left]
      exact Nat.mod_eq_of_lt (by omega)
    rw [hr, cztKernel, if_pos (by omega : k - j < n), cztChirp, cztChirp]
    have hcast : ((k - j : ℕ) : ℝ) = (k : ℝ) - j := by
      push_cast [hjk]
      ring_nf
    rw [hcast]
    rw [show ∀ z1 z2 xx z3 : ℂ, z1 * (xx * z2 * z3) = xx * (z1 * z2 * z3) from
      fun z1 z2 xx z3 => by ring]
    rw [exp_I_mul_add, exp_I_mul_add]
    congr 2
    ring
  · -- k < j: the kernel index stays at M + k - j, in the mirrored tail.
    have hrlt : cztM n + k - j < cztM n := by omega
    have hr : (cztM n + k - j) % cztM n = cztM n + k - j := Nat.mod_eq_of_lt hrlt
    rw [hr, cztKernel, if_neg (by omega : ¬ (cztM n + k - j < n)),
      if_pos (by omega : cztM n - (cztM n + k - j) < n), cztChirp, cztChirp]
    have hcast : ((cztM n - (cztM n + k - j) : ℕ) : ℝ) = (j : ℝ) - k := by
      have h1 : cztM n - (cztM n + k - j) = j - k := by omega
      rw [h1]
      push_cast [le_of_lt hjk]
      ring_nf
    rw [hcast]
    rw [show ∀ z1 z2 xx z3 : ℂ, z1 * (xx * z2 * z3) = xx * (z1 * z2 * z3) from
      fun z1 z2 xx z3 => by ring]
    rw [exp_I_mul_add, exp_I_mul_add]
    congr 2
    ring

/-- Witness for C6 at `n = 3` (not a power of two), `k = 1`, constant buffer. -/
theorem C6_czt_matches_dft_witness :
    (1 ≤ 3 ∧ 1 < 3) ∧
    czt 3 (fun _ => (1 : ℂ)) 1 =
      ∑ j ∈ Finset.range 3,
        (1 : ℂ) * Complex.exp ((-(2 * π * j * ((1 : ℕ) : ℝ) / ((3 : ℕ) : ℝ)) : ℝ) * Complex.I) :=
  ⟨⟨by norm_num, by norm_num⟩,
    C6_czt_matches_dft 3 (by norm_num) (fun _ => (1 : ℂ)) 1 (by norm_num)⟩

/-! ## fft.hpp: the bit-reversal pattern of `BitReverse<N>`

The permutation performed by `FFT::reindex` is characterised below through
binary bit reversal, so we first develop `bitrev`.
-/

/-- Binary bit reversal on `t` bits: the low bit of `j` becomes the top bit.
Only the low `t` bits of `j` are consulted. -/
def bitrev : ℕ → ℕ → ℕ
  | 0, _ => 0
  | t + 1, j => j % 2 * 2 ^ t + bitrev t (j / 2)

theorem bitrev_lt (t : ℕ) : ∀ j, bitrev t j < 2 ^ t := by
  induction t with
  | zero => intro j; simp [bitrev]
  | succ t ih =>
    intro j
    have h := ih (j / 2)
    have hp : 2 ^ (t + 1) = 2 * 2 ^ t := by ring
    rcases Nat.mod_two_eq_zero_or_one j with h2 | h2 <;>
      · simp only [bitrev, h2]
        omega

/-- The splitting lemma: reversing `a + b` bits of `x + 2^a * y` reverses the
two blocks and swaps them. -/
theorem bitrev_split (a : ℕ) :
    ∀ b x y, x < 2 ^ a →
      bitrev (a + b) (x + 2 ^ a * y) = bitrev b y + 2 ^ b * bitrev a x := by
  induction a with
  | zero =>
    intro b x y hx
    have hx0 : x = 0 := by omega
    subst hx0
    simp [bitrev]
  | succ a ih =>
    intro b x y hx
    have hx2 : x < 2 * 2 ^ a := by
      have h2 : (2 : ℕ) ^ (a + 1) = 2 * 2 ^ a := by ring
      omega
    have harg : x + 2 ^ (a + 1) * y = x + 2 * (2 ^ a * y) := by ring
    have hstep : a + 1 + b = (a + b) + 1 := by omega
    rw [harg, hstep]
    show (x + 2 * (2 ^ a * y)) % 2 * 2 ^ (a + b) +
        bitrev (a + b) ((x + 2 * (2 ^ a * y)) / 2) = _
    have hmod : (x + 2 * (2 ^ a * y)) % 2 = x % 2 := by omega
    have hdiv : (x + 2 * (2 ^ a * y)) / 2 = x / 2 + 2 ^ a * y := by omega
    rw [hmod, hdiv, ih b (x / 2) y (by omega)]
    show _ = bitrev b y + 2 ^ b * (x % 2 * 2 ^ a + bitrev a (x / 2))
    have hpow : (2 : ℕ) ^ (a + b) = 2 ^ a * 2 ^ b := pow_add 2 a b
    rw [hpow]
    ring

/-- Reversing `t + 1` bits of a value below `2^t` doubles its `t`-bit
reversal. -/
theorem bitrev_succ_of_lt (t j : ℕ) (hj : j < 2 ^ t) :
    bitrev (t + 1) j = 2 * bitrev t j := by
  have h := bitrev_split t 1 j 0 hj
  have harg : j + 2 ^ t * 0 = j := by ring
  rw [harg] at h
  rw [h]
  show bitrev 1 0 + 2 ^ 1 * bitrev t j = 2 * bitrev t j
  norm_num [bitrev]

/-- Reversing `t + 1` bits of `2^t + j` for `j < 2^t`. -/
theorem bitrev_succ_of_ge (t j : ℕ) (hj : j < 2 ^ t) :
    bitrev (t + 1) (2 ^ t + j) = 2 * bitrev t j + 1 := by
  have h := bitrev_split t 1 j 1 hj
  have harg : j + 2 ^ t * 1 = 2 ^ t + j := by ring
  rw [harg] at h
  rw [h]
  show bitrev 1 1 + 2 ^ 1 * bitrev t j = 2 * bitrev t j + 1
  norm_num [bitrev]
  omega

/-- Bit reversal is an involution on `[0, 2^t)`. -/
theorem bitrev_bitrev (t : ℕ) : ∀ j, j < 2 ^ t → bitrev t (bitrev t j) = j := by
  induction t with
  | zero =>
    intro j hj
    interval_cases j
    rfl
  | succ t ih =>
    intro j hj
    have hlow : bitrev (t + 1) j = bitrev t (j / 2) + 2 ^ t * (j % 2) := by
      show j % 2 * 2 ^ t + bitrev t (j / 2) = _
      ring
    rw [hlow, bitrev_split t 1 (bitrev t (j / 2)) (j % 2) (bitrev_lt t _)]
    have hrec : bitrev t (bitrev t (j / 2)) = j / 2 := ih (j / 2) (by omega)
    rw [hrec]
    rcases Nat.mod_two_eq_zero_or_one j with h2 | h2
    all_goals
      rw [h2]
      show bitrev 1 _ + 2 ^ 1 * (j / 2) = j
      norm_num [bitrev]
      omega

/-! ## fft.hpp: `BitReverse<N>::calc` -/

/-- The loop of `BitReverse<N>::calc` (fft.hpp): starting from `l = [0]`,
`m = 1`, `n = N`, while `(m << 2) < n` the code halves `n`, pushes `l[j] + n`
for `j < m`, and doubles `m`.  Here `m` is `l.length` (the code maintains
`m == l.size()` throughout), so one iteration appends `l.map (· + n / 2)`
after halving `n`; on exit the flag records `(m << 2) == n`. -/
def calcAux (n : ℕ) (l : List ℕ) : List ℕ × Bool :=
  if 4 * l.length < n then calcAux (n / 2) (l ++ l.map (· + n / 2))
  else (l, 4 * l.length == n)
termination_by n
decreasing_by
  exact Nat.div_lt_self (by omega) (by omega)

/-- `BitReverse<N>::calc()` together with the `ispow4` flag it sets. -/
def BitReverseCalc (N : ℕ) : List ℕ × Bool := calcAux N [0]

/-- The cached `BitReverse<N>::pattern`. -/
def pattern (N : ℕ) : List ℕ := (BitReverseCalc N).1

/-- The cached `BitReverse<N>::ispow4` flag. -/
def ispow4 (N : ℕ) : Bool := (BitReverseCalc N).2

/-- The number of doubling rounds `calc` performs on `2^b` when the list
already has `2^a` entries. -/
def tOf (a b : ℕ) : ℕ :=
  if a + 2 < b then tOf (a + 1) (b - 1) else a
termination_by b
decreasing_by
  omega

theorem tOf_eq (b : ℕ) : ∀ a, tOf a b = a + (b - a - 1) / 2 := by
  induction b using Nat.strong_induction_on with
  | _ b ih =>
    intro a
    rw [tOf]
    by_cases h : a + 2 < b
    · rw [if_pos h, ih (b - 1) (by omega) (a + 1)]
      omega
    · rw [if_neg h]
      omega

/-- One doubling round of `calc` in closed form. -/
theorem calc_list_step (a b : ℕ) (hb : 1 ≤ b) :
    ((List.range (2 ^ a)).map fun j => 2 ^ b * bitrev a j) ++
      (((List.range (2 ^ a)).map fun j => 2 ^ b * bitrev a j).map (· + 2 ^ b / 2)) =
    (List.range (2 ^ (a + 1))).map fun j => 2 ^ (b - 1) * bitrev (a + 1) j := by
  have hsplit : (2 : ℕ) ^ (a + 1) = 2 ^ a + 2 ^ a := by ring
  rw [hsplit, List.range_add, List.map_append, List.map_map]
  congr 1
  · apply List.map_congr_left
    intro j hj
    have hj' : j < 2 ^ a := List.mem_range.mp hj
    rw [bitrev_succ_of_lt a j hj']
    have h2 : (2 : ℕ) ^ b = 2 * 2 ^ (b - 1) := by
      rw [← pow_succ']
      congr 1
      omega
    rw [h2]
    ring
  · rw [List.map_map]
    apply List.map_congr_left
    intro j hj
    have hj' : j < 2 ^ a := List.mem_range.mp hj
    show 2 ^ b * bitrev a j + 2 ^ b / 2 = 2 ^ (b - 1) * bitrev (a + 1) (2 ^ a + j)
    rw [bitrev_succ_of_ge a j hj']
    have h2 : (2 : ℕ) ^ b = 2 * 2 ^ (b - 1) := by
      rw [← pow_succ']
      congr 1
      omega
    rw [h2]
    have h3 : 2 * 2 ^ (b - 1) / 2 = 2 ^ (b - 1) := by omega
    rw [h3]
    ring

/-- The `calc` loop in closed form on powers of two: the result is the list of
scaled `t`-bit reversals, and the flag records whether the exit had
`4m = n` exactly. -/
theorem calcAux_closed : ∀ b a,
    calcAux (2 ^ b) ((List.range (2 ^ a)).map fun j => 2 ^ b * bitrev a j) =
      ((List.range (2 ^ (tOf a b))).map fun j => 2 ^ (a + b - tOf a b) * bitrev (tOf a b) j,
        decide (tOf a b + 2 = a + b - tOf a b)) := by
  intro b
  induction b using Nat.strong_induction_on with
  | _ b ih =>
    intro a
    rw [calcAux]
    simp only [List.length_map, List.length_range]
    by_cases h : a + 2 < b
    · have hguard : 4 * 2 ^ a < 2 ^ b := by
        calc 4 * 2 ^ a = 2 ^ (a + 2) := by ring
        _ < 2 ^ b := Nat.pow_lt_pow_right (by norm_num) h
      rw [if_pos hguard, calc_list_step a b (by omega)]
      have hhalf : (2 : ℕ) ^ b / 2 = 2 ^ (b - 1) := by
        have h2 : (2 : ℕ) ^ b = 2 * 2 ^ (b - 1) := by
          rw [← pow_succ']
          congr 1
          omega
        omega
      rw [hhalf, ih (b - 1) (by omega) (a + 1)]
      have ht : tOf a b = tOf (a + 1) (b - 1) := by
        rw [tOf, if_pos h]
      have hs : a + 1 + (b - 1) = a + b := by omega
      rw [ht, hs]
    · have hguard : ¬ (4 * 2 ^ a < 2 ^ b) := by
        intro hc
        have : (2 : ℕ) ^ (a + 2) < 2 ^ b := by
          calc (2 : ℕ) ^ (a + 2) = 4 * 2 ^ a := by ring
          _ < 2 ^ b := hc
        have := (Nat.pow_lt_pow_iff_right (by norm_num : 1 < 2)).mp this
        omega
      rw [if_neg hguard]
      have ht : tOf a b = a := by
        rw [tOf, if_neg h]
      rw [ht]
      have hl : a + b - a = b := by omega
      rw [hl]
      congr 1
      have : (4 * 2 ^ a == 2 ^ b) = ((2 : ℕ) ^ (a + 2) == 2 ^ b) := by
        congr 1
        ring
      rw [this]
      rcases Bool.decide_iff (a + 2 = b) with _
      by_cases hb : a + 2 = b
      · rw [hb]
        simp
      · have hne : (2 : ℕ) ^ (a + 2) ≠ 2 ^ b := fun hc =>
          hb (Nat.pow_right_injective (by norm_num) hc)
        simp [hne, hb]

/-- `pattern` and `ispow4` for a power-of-two size, in closed form. -/
theorem pattern_ispow4_closed (p : ℕ) :
    pattern (2 ^ p) =
      ((List.range (2 ^ ((p - 1) / 2))).map fun j => 2 ^ (p - (p - 1) / 2) * bitrev ((p - 1) / 2) j) ∧
    ispow4 (2 ^ p) = decide ((p - 1) / 2 + 2 = p - (p - 1) / 2) := by
  have hinit : [0] = ((List.range (2 ^ 0)).map fun j => 2 ^ p * bitrev 0 j) := by
    simp [bitrev]
  have h := calcAux_closed p 0
  rw [← hinit] at h
  have ht : tOf 0 p = (p - 1) / 2 := by
    rw [tOf_eq]
    omega
  rw [ht] at h
  have hz : 0 + p - (p - 1) / 2 = p - (p - 1) / 2 := by omega
  rw [hz] at h
  constructor
  · show (calcAux (2 ^ p) [0]).1 = _
    rw [h]
  · show (calcAux (2 ^ p) [0]).2 = _
    rw [h]

/-- Claim C5: for every power-of-two `N > 1`, after `BitReverse<N>::calc()`
has run, `ispow4` is true exactly when `N` is a power of 4. -/
theorem C5_ispow4 (N p : ℕ) (hp : 1 ≤ p) (hN : N = 2 ^ p) :
    ispow4 N = true ↔ ∃ k, N = 4 ^ k := by
  subst hN
  rw [(pattern_ispow4_closed p).2]
  simp only [decide_eq_true_eq]
  constructor
  · intro h
    refine ⟨(p - 1) / 2 + 1, ?_⟩
    have hp2 : p = 2 * ((p - 1) / 2 + 1) := by omega
    calc (2 : ℕ) ^ p = 2 ^ (2 * ((p - 1) / 2 + 1)) := by rw [← hp2]
    _ = (2 ^ 2) ^ ((p - 1) / 2 + 1) := by rw [pow_mul]
    _ = 4 ^ ((p - 1) / 2 + 1) := by norm_num
  · rintro ⟨k, hk⟩
    have h4 : (4 : ℕ) ^ k = 2 ^ (2 * k) := by
      rw [pow_mul]
      norm_num
    rw [h4] at hk
    have hpk : p = 2 * k := Nat.pow_right_injective (by norm_num) hk
    omega

/-- Witness for C5 at `N = 16 = 2^4` (a power of 4). -/
theorem C5_ispow4_witness :
    (1 ≤ 4 ∧ (16 : ℕ) = 2 ^ 4) ∧ (ispow4 16 = true ↔ ∃ k, (16 : ℕ) = 4 ^ k) :=
  ⟨⟨by norm_num, by norm_num⟩, C5_ispow4 16 4 (by norm_num) (by norm_num)⟩

/-! ## fft.hpp: `FFT::reindex`

The in-place reindex routine is a sequence of `std::swap`s on buffer
positions, the out-of-place one a sequence of `out[dst] = in[src]` writes;
both are embedded as explicit lists of index pairs folded over the buffer.
-/

/-- One `std::swap(data[a], data[b])` on a buffer. -/
def swapFn (a b : ℕ) (x : ℕ → ℂ) : ℕ → ℂ :=
  fun i => if i = a then x b else if i = b then x a else x i

/-- Apply a list of swaps in order. -/
def applySwaps (l : List (ℕ × ℕ)) (x : ℕ → ℂ) : ℕ → ℂ :=
  l.foldl (fun f p => swapFn p.1 p.2 f) x

/-- Apply a list of `(dst, src)` writes `out[dst] = in[src]` in order over an
initial output buffer `tgt`, reading from the constant input `src`. -/
def applyWrites (l : List (ℕ × ℕ)) (src tgt : ℕ → ℂ) : ℕ → ℂ :=
  l.foldl (fun g p => fun i => if i = p.1 then src p.2 else g i) tgt

theorem applySwaps_cons (p : ℕ × ℕ) (l : List (ℕ × ℕ)) (x : ℕ → ℂ) :
    applySwaps (p :: l) x = applySwaps l (swapFn p.1 p.2 x) := rfl

theorem applyWrites_cons (p : ℕ × ℕ) (l : List (ℕ × ℕ)) (src tgt : ℕ → ℂ) :
    applyWrites (p :: l) src tgt =
      applyWrites l src (fun i => if i = p.1 then src p.2 else tgt i) := rfl

/-- The endpoints of a swap list, in order. -/
def endpoints (l : List (ℕ × ℕ)) : List ℕ := l.flatMap fun p => [p.1, p.2]

/-- The in-place swaps seen as writes: each swap contributes its two
one-directional assignments. -/
def swapsToWrites (l : List (ℕ × ℕ)) : List (ℕ × ℕ) :=
  l.flatMap fun p => [(p.1, p.2), (p.2, p.1)]

theorem endpoints_cons (p : ℕ × ℕ) (l : List (ℕ × ℕ)) :
    endpoints (p :: l) = p.1 :: p.2 :: endpoints l := rfl

theorem swapsToWrites_cons (p : ℕ × ℕ) (l : List (ℕ × ℕ)) :
    swapsToWrites (p :: l) = (p.1, p.2) :: (p.2, p.1) :: swapsToWrites l := rfl

theorem swapsToWrites_fst (l : List (ℕ × ℕ)) :
    (swapsToWrites l).map Prod.fst = endpoints l := by
  induction l with
  | nil => rfl
  | cons p t ih =>
    rw [swapsToWrites_cons, endpoints_cons]
    simp only [List.map_cons]
    rw [ih]

theorem applyWrites_src_congr (l : List (ℕ × ℕ)) :
    ∀ (src src' tgt : ℕ → ℂ), (∀ p ∈ l, src p.2 = src' p.2) →
      applyWrites l src tgt = applyWrites l src' tgt := by
  induction l with
  | nil => intro src src' tgt h; rfl
  | cons p t ih =>
    intro src src' tgt h
    rw [applyWrites_cons, applyWrites_cons]
    rw [h p (List.mem_cons_self p t)]
    exact ih src src' _ fun q hq => h q (List.mem_cons_of_mem p hq)

theorem applyWrites_not_mem (l : List (ℕ × ℕ)) :
    ∀ (src tgt : ℕ → ℂ) (i : ℕ), (∀ p ∈ l, p.1 ≠ i) →
      applyWrites l src tgt i = tgt i := by
  induction l with
  | nil => intro src tgt i h; rfl
  | cons p t ih =>
    intro src tgt i h
    rw [applyWrites_cons, ih _ _ _ fun q hq => h q (List.mem_cons_of_mem p hq)]
    rw [if_neg fun hc => h p (List.mem_cons_self p t) hc.symm]

theorem applyWrites_mem (l : List (ℕ × ℕ)) :
    ∀ (src tgt : ℕ → ℂ) (a b : ℕ), (l.map Prod.fst).Nodup → (a, b) ∈ l →
      applyWrites l src tgt a = src b := by
  induction l with
  | nil => intro _ _ _ _ _ hmem; cases hmem
  | cons p t ih =>
    intro src tgt a b hnd hmem
    rw [applyWrites_cons]
    simp only [List.map_cons, List.nodup_cons] at hnd
    rcases List.mem_cons.mp hmem with heq | hmem'
    · subst heq
      rw [applyWrites_not_mem t _ _ _ ?_]
      · simp
      · intro q hq hc
        apply hnd.1
        have hm : q.1 ∈ List.map Prod.fst t := List.mem_map_of_mem Prod.fst hq
        rw [hc] at hm
        exact hm
    · exact ih _ _ _ _ hnd.2 hmem'

/-- With pairwise-distinct endpoints, a list of swaps acts like the
corresponding list of one-directional writes over the original buffer. -/
theorem applySwaps_eq_applyWrites (l : List (ℕ × ℕ)) :
    ∀ x : ℕ → ℂ, (endpoints l).Nodup →
      applySwaps l x = applyWrites (swapsToWrites l) x x := by
  induction l with
  | nil => intro x _; rfl
  | cons p t ih =>
    intro x hnd
    rw [endpoints_cons] at hnd
    simp only [List.nodup_cons] at hnd
    rw [applySwaps_cons, swapsToWrites_cons, applyWrites_cons, applyWrites_cons]
    have htgt : (fun i => if i = p.2 then x p.1 else if i = p.1 then x p.2 else x i) =
        swapFn p.1 p.2 x := by
      funext i
      unfold swapFn
      by_cases h1 : i = p.1
      · by_cases h2 : i = p.2
        · rw [if_pos h2, if_pos h1]
          exact congrArg x (h1.symm.trans h2)
        · rw [if_neg h2, if_pos h1, if_pos h1]
      · by_cases h2 : i = p.2
        · rw [if_pos h2, if_neg h1, if_pos h2]
        · rw [if_neg h2, if_neg h1, if_neg h1, if_neg h2]
    rw [htgt, ih (swapFn p.1 p.2 x) hnd.2.2]
    apply applyWrites_src_congr
    intro q hq
    have hq2 : q.2 ∈ endpoints t := by
      rcases List.mem_flatMap.mp hq with ⟨r, hr, hqr⟩
      rcases List.mem_cons.mp hqr with h | hqr2
      · subst h
        exact List.mem_flatMap.mpr ⟨r, hr, by simp⟩
      · rcases List.mem_cons.mp hqr2 with h | hnil
        · subst h
          exact List.mem_flatMap.mpr ⟨r, hr, by simp⟩
        · cases hnil
    have hne1 : ¬ (q.2 = p.1) := fun hc =>
      hnd.1 (List.mem_cons_of_mem _ (hc ▸ hq2))
    have hne2 : ¬ (q.2 = p.2) := fun hc => hnd.2.1 (hc ▸ hq2)
    unfold swapFn
    rw [if_neg hne1, if_neg hne2]

/-- A list of naturals of length `N` whose members cover `[0, N)` has no
duplicates. -/
theorem nodup_of_length_cover (l : List ℕ) (N : ℕ) (hlen : l.length = N)
    (hcov : ∀ i < N, i ∈ l) : l.Nodup ∧ ∀ x ∈ l, x < N := by
  have hsub : List.range N ⊆ l := by
    intro i hi
    exact hcov i (List.mem_range.mp hi)
  have hsp : (List.range N).Subperm l := (List.nodup_range N).subperm hsub
  have hperm : (List.range N).Perm l := by
    apply hsp.perm_of_length_le
    rw [hlen, List.length_range]
  refine ⟨hperm.nodup_iff.mp (List.nodup_range N), fun x hx => ?_⟩
  exact List.mem_range.mp (hperm.mem_iff.mpr hx)

/-- The swaps of the in-place `FFT<T,N>::reindex` (fft.hpp), in program
order.  `m = pattern.size()`.  In the `ispow4` branch the outer loop runs
`k = 0..m-1`; each inner iteration `j < k` swaps `(j1, k1)`, then
`(j1+m, k1+2m)`, `(j1+2m, k1+m)`, `(j1+3m, k1+3m)` where
`j1 = j + pattern[k]`, `k1 = k + pattern[j]`, followed by the diagonal swap
`(k+m+pattern[k], k+2m+pattern[k])`.  In the other branch the outer loop runs
`k = 1..m-1` and each inner iteration swaps `(j1, k1)` and `(j1+m, k1+m)`. -/
def reindexSwaps (N : ℕ) : List (ℕ × ℕ) :=
  let pat := pattern N
  let m := pat.length
  if ispow4 N then
    (List.range m).flatMap fun k =>
      ((List.range k).flatMap fun j =>
        let j1 := j + pat.getD k 0
        let k1 := k + pat.getD j 0
        [(j1, k1), (j1 + m, k1 + 2 * m), (j1 + 2 * m, k1 + m), (j1 + 3 * m, k1 + 3 * m)]) ++
      [(k + m + pat.getD k 0, k + 2 * m + pat.getD k 0)]
  else
    (List.range (m - 1)).flatMap fun k0 =>
      let k := k0 + 1
      (List.range k).flatMap fun j =>
        let j1 := j + pat.getD k 0
        let k1 := k + pat.getD j 0
        [(j1, k1), (j1 + m, k1 + m)]

/-- In-place `FFT<T,N>::reindex(data)`. -/
def reindex (N : ℕ) (x : ℕ → ℂ) : ℕ → ℂ := applySwaps (reindexSwaps N) x

/-- The `(dst, src)` writes of the out-of-place `FFT<T,N>::reindex(in, out)`
(fft.hpp), in program order.  Each `out[j1] = in[k1]; out[k1] = in[j1]` pair
of the source becomes two writes; the diagonal of the `ispow4` branch copies
`k+pattern[k]` and `k+3m+pattern[k]` and swaps the two middle positions, and
the other branch copies the two fixed positions of each `k` (plus `out[0]`
and `out[m]` before its loop). -/
def reindexWrites (N : ℕ) : List (ℕ × ℕ) :=
  let pat := pattern N
  let m := pat.length
  if ispow4 N then
    (List.range m).flatMap fun k =>
      ((List.range k).flatMap fun j =>
        let j1 := j + pat.getD k 0
        let k1 := k + pat.getD j 0
        [(j1, k1), (k1, j1),
         (j1 + m, k1 + 2 * m), (k1 + 2 * m, j1 + m),
         (j1 + 2 * m, k1 + m), (k1 + m, j1 + 2 * m),
         (j1 + 3 * m, k1 + 3 * m), (k1 + 3 * m, j1 + 3 * m)]) ++
      [(k + pat.getD k 0, k + pat.getD k 0),
       (k + m + pat.getD k 0, k + 2 * m + pat.getD k 0),
       (k + 2 * m + pat.getD k 0, k + m + pat.getD k 0),
       (k + 3 * m + pat.getD k 0, k + 3 * m + pat.getD k 0)]
  else
    [(0, 0), (m, m)] ++
    (List.range (m - 1)).flatMap fun k0 =>
      let k := k0 + 1
      ((List.range k).flatMap fun j =>
        let j1 := j + pat.getD k 0
        let k1 := k + pat.getD j 0
        [(j1, k1), (k1, j1), (j1 + m, k1 + m), (k1 + m, j1 + m)]) ++
      [(k + pat.getD k 0, k + pat.getD k 0),
       (k + pat.getD k 0 + m, k + pat.getD k 0 + m)]

/-- Out-of-place `FFT<T,N>::reindex(in, out)`: positions never written keep
the previous contents `out0` of the output buffer. -/
def reindexOut (N : ℕ) (xin out0 : ℕ → ℂ) : ℕ → ℂ :=
  applyWrites (reindexWrites N) xin out0

/-! ## fft.hpp: the `Radix4` butterfly -/

noncomputable section

/-- The recursive `Radix4<T,N,D>::operator()` (fft.hpp).  The four quarters
are transformed by the `Radix4<T,N/4,D>` member `next` (sizes 2 and 1 are the
specialised base cases: the two-point butterfly and the no-op), then each
group `i0, i0+N4, i0+2*N4, i0+3*N4` is combined; for `i0 = 0` the twiddles
are skipped (`(1+0i)`), for `i0 ≥ 1` the values `a2, a1, a3` are
`mul`-multiplied by `t2[i0], t1[i0], t3[i0]`.  Positions `≥ N` are
untouched. -/
def radix4 (D : ℤ) : ℕ → (ℕ → ℂ) → ℕ → ℂ
  | 0, x => x
  | 1, x => x
  | 2, x => fun i => if i = 0 then x 0 + x 1 else if i = 1 then x 0 - x 1 else x i
  | N + 3, x =>
    let N4 := (N + 3) / 4
    let y : ℕ → ℂ := fun i =>
      if i < N + 3 then radix4 D N4 (fun j => x (N4 * (i / N4) + j)) (i % N4) else x i
    fun i =>
      if i < N + 3 then
        let i0 := i % N4
        let a0 := y i0
        let a2 := if i0 = 0 then y (i0 + N4)
          else mul (y (i0 + N4)) ((Radix4.t2 (N + 3) D).getD i0 0)
        let a1 := if i0 = 0 then y (i0 + 2 * N4)
          else mul (y (i0 + 2 * N4)) ((Radix4.t1 (N + 3) D).getD i0 0)
        let a3 := if i0 = 0 then y (i0 + 3 * N4)
          else mul (y (i0 + 3 * N4)) ((Radix4.t3 (N + 3) D).getD i0 0)
        let b0 := a1 + a3
        let b1 := direction D (a1 - a3)
        if i / N4 = 0 then a0 + a2 + b0
        else if i / N4 = 1 then a0 - a2 + b1
        else if i / N4 = 2 then a0 + a2 - b0
        else a0 - a2 - b1
      else x i
termination_by N => N
decreasing_by
  omega

/-- `FFT<T,N>::dft(data)`: in-place forward transform, `Radix4<T,N,-1>` after
`reindex`. -/
def dft (N : ℕ) (x : ℕ → ℂ) : ℕ → ℂ := radix4 (-1) N (reindex N x)

/-- `FFT<T,N>::idft(data)`: in-place inverse transform, `Radix4<T,N,1>` after
`reindex`. -/
def idft (N : ℕ) (x : ℕ → ℂ) : ℕ → ℂ := radix4 1 N (reindex N x)

/-- `FFT<T,N>::dft(in, out)`: out-of-place forward transform. -/
def dftOut (N : ℕ) (xin out0 : ℕ → ℂ) : ℕ → ℂ := radix4 (-1) N (reindexOut N xin out0)

/-- `FFT<T,N>::idft(in, out)`: out-of-place inverse transform. -/
def idftOut (N : ℕ) (xin out0 : ℕ → ℂ) : ℕ → ℂ := radix4 1 N (reindexOut N xin out0)

end

/-! ## Digit calculus for the reindex permutation

Indices below `N = 2^(2t+w)` split into three digits `(lo, c, hi)` with
`lo, hi < 2^t` and a middle digit `c < 2^w` (`w = 2` for the `ispow4` branch,
`w = 1` otherwise); the reindex permutation is full bit reversal, which in
digits is `(lo, c, hi) ↦ (bitrev hi, bitrev c, bitrev lo)`.
-/

/-- Mixed-radix encoding `(lo, c, hi) ↦ lo + c·2^t + hi·2^(t+w)`. -/
def enc (t w lo c hi : ℕ) : ℕ := lo + c * 2 ^ t + hi * 2 ^ (t + w)

theorem lo_c_lt (t w lo c : ℕ) (hlo : lo < 2 ^ t) (hc : c < 2 ^ w) :
    lo + c * 2 ^ t < 2 ^ (t + w) := by
  have h4 : c * 2 ^ t ≤ (2 ^ w - 1) * 2 ^ t := Nat.mul_le_mul_right _ (by omega)
  have h6 : (2 ^ w - 1) * 2 ^ t = 2 ^ (t + w) - 2 ^ t := by
    rw [Nat.sub_one_mul, pow_add]
    congr 1
    ring
  rw [h6] at h4
  have hA : (0:ℕ) < 2 ^ t := pow_pos (by norm_num) t
  have hmono : (2:ℕ) ^ t ≤ 2 ^ (t + w) := Nat.pow_le_pow_right (by norm_num) (by omega)
  omega

theorem enc_lt (t w lo c hi : ℕ) (hlo : lo < 2 ^ t) (hc : c < 2 ^ w) (hhi : hi < 2 ^ t) :
    enc t w lo c hi < 2 ^ (2 * t + w) := by
  have hp := lo_c_lt t w lo c hlo hc
  have h3 : hi * 2 ^ (t + w) ≤ (2 ^ t - 1) * 2 ^ (t + w) := Nat.mul_le_mul_right _ (by omega)
  have h5 : (2 ^ t - 1) * 2 ^ (t + w) = 2 ^ (2 * t + w) - 2 ^ (t + w) := by
    rw [Nat.sub_one_mul, ← pow_add]
    congr 2
    omega
  rw [h5] at h3
  have hB : (0:ℕ) < 2 ^ (t + w) := pow_pos (by norm_num) _
  have hmono : (2:ℕ) ^ (t + w) ≤ 2 ^ (2 * t + w) := Nat.pow_le_pow_right (by norm_num) (by omega)
  unfold enc
  omega

theorem enc_eq_low_form (t w lo c hi : ℕ) :
    enc t w lo c hi = lo + 2 ^ t * (c + 2 ^ w * hi) := by
  unfold enc
  rw [pow_add]
  ring

theorem enc_eq_high_form (t w lo c hi : ℕ) :
    enc t w lo c hi = (lo + c * 2 ^ t) + 2 ^ (t + w) * hi := by
  unfold enc
  ring

theorem enc_digits (t w lo c hi : ℕ) (hlo : lo < 2 ^ t) (hc : c < 2 ^ w) :
    enc t w lo c hi % 2 ^ t = lo ∧ (enc t w lo c hi / 2 ^ t) % 2 ^ w = c ∧
      enc t w lo c hi / 2 ^ (t + w) = hi := by
  have hA : (0:ℕ) < 2 ^ t := pow_pos (by norm_num) t
  have hB : (0:ℕ) < 2 ^ (t + w) := pow_pos (by norm_num) _
  refine ⟨?_, ?_, ?_⟩
  · rw [enc_eq_low_form, Nat.add_mul_mod_self_left, Nat.mod_eq_of_lt hlo]
  · rw [enc_eq_low_form, Nat.add_mul_div_left _ _ hA, Nat.div_eq_of_lt hlo,
      Nat.zero_add, Nat.add_mul_mod_self_left, Nat.mod_eq_of_lt hc]
  · rw [enc_eq_high_form, Nat.add_mul_div_left _ _ hB,
      Nat.div_eq_of_lt (lo_c_lt t w lo c hlo hc), Nat.zero_add]

theorem enc_decompose (t w i : ℕ) (hi : i < 2 ^ (2 * t + w)) :
    i = enc t w (i % 2 ^ t) (i / 2 ^ t % 2 ^ w) (i / 2 ^ (t + w)) ∧
      i % 2 ^ t < 2 ^ t ∧ i / 2 ^ t % 2 ^ w < 2 ^ w ∧ i / 2 ^ (t + w) < 2 ^ t := by
  have hA : (0:ℕ) < 2 ^ t := pow_pos (by norm_num) t
  have hW : (0:ℕ) < 2 ^ w := pow_pos (by norm_num) w
  have hB : (0:ℕ) < 2 ^ (t + w) := pow_pos (by norm_num) _
  refine ⟨?_, Nat.mod_lt _ hA, Nat.mod_lt _ hW, ?_⟩
  · have h1 : i % 2 ^ (t + w) + 2 ^ (t + w) * (i / 2 ^ (t + w)) = i := Nat.mod_add_div i _
    have h2 : i % 2 ^ (t + w) = i % 2 ^ t + 2 ^ t * (i / 2 ^ t % 2 ^ w) := by
      have hmul : (2:ℕ) ^ (t + w) = 2 ^ t * 2 ^ w := pow_add 2 t w
      rw [hmul]
      exact Nat.mod_mul
    have hcomm : 2 ^ t * (i / 2 ^ t % 2 ^ w) = (i / 2 ^ t % 2 ^ w) * 2 ^ t :=
      Nat.mul_comm _ _
    rw [enc_eq_high_form]
    omega
  · rw [Nat.div_lt_iff_lt_mul hB]
    calc i < 2 ^ (2 * t + w) := hi
    _ = 2 ^ t * 2 ^ (t + w) := by rw [← pow_add]; congr 1; omega

theorem enc_inj (t w : ℕ) {lo1 c1 hi1 lo2 c2 hi2 : ℕ}
    (hlo1 : lo1 < 2 ^ t) (hc1 : c1 < 2 ^ w)
    (hlo2 : lo2 < 2 ^ t) (hc2 : c2 < 2 ^ w)
    (h : enc t w lo1 c1 hi1 = enc t w lo2 c2 hi2) :
    lo1 = lo2 ∧ c1 = c2 ∧ hi1 = hi2 := by
  have h1 := enc_digits t w lo1 c1 hi1 hlo1 hc1
  have h2 := enc_digits t w lo2 c2 hi2 hlo2 hc2
  rw [h] at h1
  exact ⟨h1.1.symm.trans h2.1, h1.2.1.symm.trans h2.2.1, h1.2.2.symm.trans h2.2.2⟩

/-- Bit reversal in digit form. -/
theorem bitrev_enc (t w lo c hi : ℕ) (hlo : lo < 2 ^ t) (hc : c < 2 ^ w) :
    bitrev (2 * t + w) (enc t w lo c hi) =
      enc t w (bitrev t hi) (bitrev w c) (bitrev t lo) := by
  have hidx : 2 * t + w = t + (w + t) := by omega
  rw [hidx, enc_eq_low_form, bitrev_split t (w + t) lo (c + 2 ^ w * hi) hlo,
    bitrev_split w t c hi hc]
  unfold enc
  have hcomm : (2:ℕ) ^ (w + t) = 2 ^ (t + w) := by
    congr 1
    omega
  rw [hcomm]
  ring

theorem bitrev_zero_val (t : ℕ) : bitrev t 0 = 0 := by
  induction t with
  | zero => rfl
  | succ t ih => simp [bitrev, ih]

/-! Closed form of `pattern` and `ispow4` in the two branches. -/

theorem pattern_pow4 (t : ℕ) :
    pattern (2 ^ (2 * t + 2)) = ((List.range (2 ^ t)).map fun j => 2 ^ (t + 2) * bitrev t j) ∧
      ispow4 (2 ^ (2 * t + 2)) = true := by
  have h := pattern_ispow4_closed (2 * t + 2)
  have h1 : (2 * t + 2 - 1) / 2 = t := by omega
  rw [h1] at h
  have h2 : 2 * t + 2 - t = t + 2 := by omega
  rw [h2] at h
  refine ⟨h.1, ?_⟩
  rw [h.2]
  simp

theorem pattern_npow4 (t : ℕ) :
    pattern (2 ^ (2 * t + 1)) = ((List.range (2 ^ t)).map fun j => 2 ^ (t + 1) * bitrev t j) ∧
      ispow4 (2 ^ (2 * t + 1)) = false := by
  have h := pattern_ispow4_closed (2 * t + 1)
  have h1 : (2 * t + 1 - 1) / 2 = t := by omega
  rw [h1] at h
  have h2 : 2 * t + 1 - t = t + 1 := by omega
  rw [h2] at h
  refine ⟨h.1, ?_⟩
  rw [h.2]
  simp

/-! Arithmetic sum helpers for the loop lengths. -/

theorem sum_map_range_4k1 (m : ℕ) :
    (((List.range m).map fun k => 4 * k + 1).sum) + m = 2 * (m * m) := by
  induction m with
  | zero => rfl
  | succ m ih =>
    rw [List.range_succ, List.map_append, List.sum_append]
    simp only [List.map_cons, List.map_nil, List.sum_cons, List.sum_nil]
    have hr : 2 * ((m + 1) * (m + 1)) = 2 * (m * m) + 4 * m + 2 := by ring
    omega

theorem sum_map_range_8k4 (m : ℕ) :
    (((List.range m).map fun k => 8 * k + 4).sum) = 4 * (m * m) := by
  induction m with
  | zero => rfl
  | succ m ih =>
    rw [List.range_succ, List.map_append, List.sum_append]
    simp only [List.map_cons, List.map_nil, List.sum_cons, List.sum_nil]
    have hr : 4 * ((m + 1) * (m + 1)) = 4 * (m * m) + 8 * m + 4 := by ring
    omega

theorem sum_map_range_2k2 (q : ℕ) :
    (((List.range q).map fun k0 => 2 * (k0 + 1)).sum) = q * (q + 1) := by
  induction q with
  | zero => rfl
  | succ q ih =>
    rw [List.range_succ, List.map_append, List.sum_append]
    simp only [List.map_cons, List.map_nil, List.sum_cons, List.sum_nil]
    have hr : (q + 1) * (q + 1 + 1) = q * (q + 1) + 2 * (q + 1) := by ring
    omega

theorem sum_map_range_4k6 (q : ℕ) :
    (((List.range q).map fun k0 => 4 * (k0 + 1) + 2).sum) = 2 * (q * q) + 4 * q := by
  induction q with
  | zero => rfl
  | succ q ih =>
    rw [List.range_succ, List.map_append, List.sum_append]
    simp only [List.map_cons, List.map_nil, List.sum_cons, List.sum_nil]
    have hr : 2 * ((q + 1) * (q + 1)) + 4 * (q + 1) = 2 * (q * q) + 4 * q + (4 * (q + 1) + 2) := by
      ring
    omega

theorem sum_map_range_const (m c : ℕ) :
    (((List.range m).map fun _ => c).sum) = c * m := by
  induction m with
  | zero => rfl
  | succ m ih =>
    rw [List.range_succ, List.map_append, List.sum_append]
    simp only [List.map_cons, List.map_nil, List.sum_cons, List.sum_nil]
    have hr : c * (m + 1) = c * m + c := by ring
    omega

theorem swapsToWrites_length (l : List (ℕ × ℕ)) :
    (swapsToWrites l).length = 2 * l.length := by
  induction l with
  | nil => rfl
  | cons p tl ih =>
    rw [swapsToWrites_cons]
    simp only [List.length_cons, ih]
    omega

theorem endpoints_length (l : List (ℕ × ℕ)) :
    (endpoints l).length = 2 * l.length := by
  induction l with
  | nil => rfl
  | cons p tl ih =>
    rw [endpoints_cons]
    simp only [List.length_cons, ih]
    omega

theorem endpoints_append (l1 l2 : List (ℕ × ℕ)) :
    endpoints (l1 ++ l2) = endpoints l1 ++ endpoints l2 := by
  unfold endpoints
  exact List.flatMap_append l1 l2 _

theorem endpoints_flatMap {α : Type} (l : List α) (f : α → List (ℕ × ℕ)) :
    endpoints (l.flatMap f) = l.flatMap fun a => endpoints (f a) := by
  induction l with
  | nil => rfl
  | cons a tl ih =>
    rw [List.flatMap_cons, List.flatMap_cons, endpoints_append, ih]

/-! ## The reindex permutation is bit reversal -/

theorem flatMap_congr_left {α β : Type} (l : List α) (f g : α → List β)
    (h : ∀ a ∈ l, f a = g a) : l.flatMap f = l.flatMap g := by
  induction l with
  | nil => rfl
  | cons a tl ih =>
    rw [List.flatMap_cons, List.flatMap_cons, h a (List.mem_cons_self a tl),
      ih fun b hb => h b (List.mem_cons_of_mem a hb)]

theorem mem_swapsToWrites_of_mem (l : List (ℕ × ℕ)) (p : ℕ × ℕ) (hp : p ∈ l) :
    (p.1, p.2) ∈ swapsToWrites l ∧ (p.2, p.1) ∈ swapsToWrites l := by
  unfold swapsToWrites
  constructor <;> exact List.mem_flatMap.mpr ⟨p, hp, by simp⟩

/-- Swap the two components of a pair. -/
def prswap (p : ℕ × ℕ) : ℕ × ℕ := (p.2, p.1)

/-- One inner swap of the `ispow4` branch of `reindex`, in digit form:
position `(j, c, bitrev k)` is exchanged with `(k, bitrev c, bitrev j)`. -/
def swapPow4 (t j k c : ℕ) : ℕ × ℕ :=
  (enc t 2 j c (bitrev t k), enc t 2 k (bitrev 2 c) (bitrev t j))

/-- One inner swap of the non-`ispow4` branch of `reindex`, in digit form:
the middle bit is kept. -/
def swapNpow4 (t j k c : ℕ) : ℕ × ℕ :=
  (enc t 1 j c (bitrev t k), enc t 1 k c (bitrev t j))

/-- Positions never touched by the in-place `ispow4` loop: diagonal cells
with middle digit `0` or `3`. -/
def fixedPow4 (t : ℕ) : List ℕ :=
  (List.range (2 ^ t)).flatMap fun h => [enc t 2 (bitrev t h) 0 h, enc t 2 (bitrev t h) 3 h]

/-- Positions never touched by the in-place non-`ispow4` loop: diagonal
cells with either middle bit. -/
def fixedNpow4 (t : ℕ) : List ℕ :=
  (List.range (2 ^ t)).flatMap fun h => [enc t 1 (bitrev t h) 0 h, enc t 1 (bitrev t h) 1 h]

theorem reindexSwaps_pow4_eq (t : ℕ) :
    reindexSwaps (2 ^ (2 * t + 2)) =
      (List.range (2 ^ t)).flatMap fun k =>
        ((List.range k).flatMap fun j =>
          [swapPow4 t j k 0, swapPow4 t j k 1, swapPow4 t j k 2, swapPow4 t j k 3]) ++
        [swapPow4 t k k 1] := by
  have hp := pattern_pow4 t
  unfold reindexSwaps
  simp only [hp.1, hp.2, List.length_map, List.length_range]
  rw [if_pos trivial]
  apply flatMap_congr_left
  intro k hk
  have hkm : k < 2 ^ t := List.mem_range.mp hk
  have hgk := range_map_getD (2 ^ t) (fun j => 2 ^ (t + 2) * bitrev t j) k 0 hkm
  congr 1
  · apply flatMap_congr_left
    intro j hj
    have hjm : j < 2 ^ t := lt_trans (List.mem_range.mp hj) hkm
    have hgj := range_map_getD (2 ^ t) (fun j => 2 ^ (t + 2) * bitrev t j) j 0 hjm
    rw [hgk, hgj]
    simp only [swapPow4, enc, show bitrev 2 0 = 0 from rfl, show bitrev 2 1 = 2 from rfl,
      show bitrev 2 2 = 1 from rfl, show bitrev 2 3 = 3 from rfl]
    ring_nf
  · rw [hgk]
    simp only [swapPow4, enc, show bitrev 2 1 = 2 from rfl]
    ring_nf

theorem reindexSwaps_npow4_eq (t : ℕ) :
    reindexSwaps (2 ^ (2 * t + 1)) =
      (List.range (2 ^ t - 1)).flatMap fun k0 =>
        (List.range (k0 + 1)).flatMap fun j =>
          [swapNpow4 t j (k0 + 1) 0, swapNpow4 t j (k0 + 1) 1] := by
  have hp := pattern_npow4 t
  unfold reindexSwaps
  simp only [hp.1, hp.2, List.length_map, List.length_range]
  rw [if_neg Bool.false_ne_true]
  apply flatMap_congr_left
  intro k0 hk0
  have hpos : (0:ℕ) < 2 ^ t := pow_pos (by norm_num) t
  have hkm : k0 + 1 < 2 ^ t := by
    have := List.mem_range.mp hk0
    omega
  have hgk := range_map_getD (2 ^ t) (fun j => 2 ^ (t + 1) * bitrev t j) (k0 + 1) 0 hkm
  apply flatMap_congr_left
  intro j hj
  have hjm : j < 2 ^ t := lt_trans (List.mem_range.mp hj) hkm
  have hgj := range_map_getD (2 ^ t) (fun j => 2 ^ (t + 1) * bitrev t j) j 0 hjm
  rw [hgk, hgj]
  simp only [swapNpow4, enc]
  ring_nf

theorem reindexWrites_pow4_eq (t : ℕ) :
    reindexWrites (2 ^ (2 * t + 2)) =
      (List.range (2 ^ t)).flatMap fun k =>
        ((List.range k).flatMap fun j =>
          [swapPow4 t j k 0, prswap (swapPow4 t j k 0),
           swapPow4 t j k 1, prswap (swapPow4 t j k 1),
           swapPow4 t j k 2, prswap (swapPow4 t j k 2),
           swapPow4 t j k 3, prswap (swapPow4 t j k 3)]) ++
        [(enc t 2 k 0 (bitrev t k), enc t 2 k 0 (bitrev t k)),
         (enc t 2 k 1 (bitrev t k), enc t 2 k 2 (bitrev t k)),
         (enc t 2 k 2 (bitrev t k), enc t 2 k 1 (bitrev t k)),
         (enc t 2 k 3 (bitrev t k), enc t 2 k 3 (bitrev t k))] := by
  have hp := pattern_pow4 t
  unfold reindexWrites
  simp only [hp.1, hp.2, List.length_map, List.length_range]
  rw [if_pos trivial]
  apply flatMap_congr_left
  intro k hk
  have hkm : k < 2 ^ t := List.mem_range.mp hk
  have hgk := range_map_getD (2 ^ t) (fun j => 2 ^ (t + 2) * bitrev t j) k 0 hkm
  congr 1
  · apply flatMap_congr_left
    intro j hj
    have hjm : j < 2 ^ t := lt_trans (List.mem_range.mp hj) hkm
    have hgj := range_map_getD (2 ^ t) (fun j => 2 ^ (t + 2) * bitrev t j) j 0 hjm
    rw [hgk, hgj]
    simp only [swapPow4, prswap, enc, show bitrev 2 0 = 0 from rfl,
      show bitrev 2 1 = 2 from rfl, show bitrev 2 2 = 1 from rfl,
      show bitrev 2 3 = 3 from rfl]
    ring_nf
  · rw [hgk]
    simp only [enc]
    ring_nf

theorem reindexWrites_npow4_eq (t : ℕ) :
    reindexWrites (2 ^ (2 * t + 1)) =
      [(enc t 1 0 0 0, enc t 1 0 0 0), (enc t 1 0 1 0, enc t 1 0 1 0)] ++
      (List.range (2 ^ t - 1)).flatMap fun k0 =>
        ((List.range (k0 + 1)).flatMap fun j =>
          [swapNpow4 t j (k0 + 1) 0, prswap (swapNpow4 t j (k0 + 1) 0),
           swapNpow4 t j (k0 + 1) 1, prswap (swapNpow4 t j (k0 + 1) 1)]) ++
        [(enc t 1 (k0 + 1) 0 (bitrev t (k0 + 1)), enc t 1 (k0 + 1) 0 (bitrev t (k0 + 1))),
         (enc t 1 (k0 + 1) 1 (bitrev t (k0 + 1)), enc t 1 (k0 + 1) 1 (bitrev t (k0 + 1)))] := by
  have hp := pattern_npow4 t
  unfold reindexWrites
  simp only [hp.1, hp.2, List.length_map, List.length_range]
  rw [if_neg Bool.false_ne_true]
  congr 1
  · simp only [enc, bitrev_zero_val]
    ring_nf
  apply flatMap_congr_left
  intro k0 hk0
  have hpos : (0:ℕ) < 2 ^ t := pow_pos (by norm_num) t
  have hkm : k0 + 1 < 2 ^ t := by
    have := List.mem_range.mp hk0
    omega
  have hgk := range_map_getD (2 ^ t) (fun j => 2 ^ (t + 1) * bitrev t j) (k0 + 1) 0 hkm
  congr 1
  · apply flatMap_congr_left
    intro j hj
    have hjm : j < 2 ^ t := lt_trans (List.mem_range.mp hj) hkm
    have hgj := range_map_getD (2 ^ t) (fun j => 2 ^ (t + 1) * bitrev t j) j 0 hjm
    rw [hgk, hgj]
    simp only [swapNpow4, prswap, enc]
    ring_nf
  · rw [hgk]
    simp only [enc]
    ring_nf

theorem reindex_cover_pow4_aux (t lo c h3 : ℕ) (hlo : lo < 2 ^ t) (hc : c < 2 ^ 2)
    (hh3 : h3 < 2 ^ t) :
    (enc t 2 lo c h3, enc t 2 (bitrev t h3) (bitrev 2 c) (bitrev t lo)) ∈
        swapsToWrites (reindexSwaps (2 ^ (2 * t + 2))) ∨
      (enc t 2 (bitrev t h3) (bitrev 2 c) (bitrev t lo) = enc t 2 lo c h3 ∧
        enc t 2 lo c h3 ∈ fixedPow4 t) := by
  have hc4 : c < 4 := by simpa using hc
  rcases Nat.lt_trichotomy lo (bitrev t h3) with hlt | heq | hgt
  · left
    have hmem : swapPow4 t lo (bitrev t h3) c ∈ reindexSwaps (2 ^ (2 * t + 2)) := by
      rw [reindexSwaps_pow4_eq]
      refine List.mem_flatMap.mpr ⟨bitrev t h3, List.mem_range.mpr (bitrev_lt t h3), ?_⟩
      refine List.mem_append_left _ (List.mem_flatMap.mpr ⟨lo, List.mem_range.mpr hlt, ?_⟩)
      interval_cases c <;> simp
    have hw := (mem_swapsToWrites_of_mem _ _ hmem).1
    have h1 : (swapPow4 t lo (bitrev t h3) c).1 = enc t 2 lo c h3 := by
      show enc t 2 lo c (bitrev t (bitrev t h3)) = enc t 2 lo c h3
      rw [bitrev_bitrev t h3 hh3]
    rw [h1] at hw
    exact hw
  · have hrl : bitrev t lo = h3 := by
      rw [heq]
      exact bitrev_bitrev t h3 hh3
    interval_cases c
    · right
      constructor
      · rw [show bitrev 2 0 = 0 from rfl, ← heq, hrl]
      · unfold fixedPow4
        refine List.mem_flatMap.mpr ⟨h3, List.mem_range.mpr hh3, ?_⟩
        rw [← heq]
        simp
    · left
      have hmem : swapPow4 t lo lo 1 ∈ reindexSwaps (2 ^ (2 * t + 2)) := by
        rw [reindexSwaps_pow4_eq]
        refine List.mem_flatMap.mpr ⟨lo, List.mem_range.mpr hlo, ?_⟩
        exact List.mem_append_right _ (by simp)
      have hw := (mem_swapsToWrites_of_mem _ _ hmem).1
      have h1 : (swapPow4 t lo lo 1).1 = enc t 2 lo 1 h3 := by
        show enc t 2 lo 1 (bitrev t lo) = enc t 2 lo 1 h3
        rw [hrl]
      have h2 : (swapPow4 t lo lo 1).2 = enc t 2 (bitrev t h3) (bitrev 2 1) (bitrev t lo) := by
        show enc t 2 lo (bitrev 2 1) (bitrev t lo) = enc t 2 (bitrev t h3) (bitrev 2 1) (bitrev t lo)
        rw [← heq]
      rw [h1, h2] at hw
      exact hw
    · left
      have hmem : swapPow4 t lo lo 1 ∈ reindexSwaps (2 ^ (2 * t + 2)) := by
        rw [reindexSwaps_pow4_eq]
        refine List.mem_flatMap.mpr ⟨lo, List.mem_range.mpr hlo, ?_⟩
        exact List.mem_append_right _ (by simp)
      have hw := (mem_swapsToWrites_of_mem _ _ hmem).2
      have h2 : (swapPow4 t lo lo 1).2 = enc t 2 lo 2 h3 := by
        show enc t 2 lo (bitrev 2 1) (bitrev t lo) = enc t 2 lo 2 h3
        rw [show bitrev 2 1 = 2 from rfl, hrl]
      have h1 : (swapPow4 t lo lo 1).1 = enc t 2 (bitrev t h3) (bitrev 2 2) (bitrev t lo) := by
        show enc t 2 lo 1 (bitrev t lo) = enc t 2 (bitrev t h3) (bitrev 2 2) (bitrev t lo)
        rw [show bitrev 2 2 = 1 from rfl, ← heq]
      rw [h2, h1] at hw
      exact hw
    · right
      constructor
      · rw [show bitrev 2 3 = 3 from rfl, ← heq, hrl]
      · unfold fixedPow4
        refine List.mem_flatMap.mpr ⟨h3, List.mem_range.mpr hh3, ?_⟩
        rw [← heq]
        simp
  · left
    have hmem : swapPow4 t (bitrev t h3) lo (bitrev 2 c) ∈ reindexSwaps (2 ^ (2 * t + 2)) := by
      rw [reindexSwaps_pow4_eq]
      refine List.mem_flatMap.mpr ⟨lo, List.mem_range.mpr hlo, ?_⟩
      refine List.mem_append_left _ (List.mem_flatMap.mpr ⟨bitrev t h3, List.mem_range.mpr hgt, ?_⟩)
      interval_cases c <;>
        simp [show bitrev 2 0 = 0 from rfl, show bitrev 2 1 = 2 from rfl,
          show bitrev 2 2 = 1 from rfl, show bitrev 2 3 = 3 from rfl]
    have hw := (mem_swapsToWrites_of_mem _ _ hmem).2
    have h2 : (swapPow4 t (bitrev t h3) lo (bitrev 2 c)).2 = enc t 2 lo c h3 := by
      show enc t 2 lo (bitrev 2 (bitrev 2 c)) (bitrev t (bitrev t h3)) = enc t 2 lo c h3
      rw [bitrev_bitrev 2 c hc, bitrev_bitrev t h3 hh3]
    rw [h2] at hw
    exact hw

theorem reindex_cover_pow4 (t i : ℕ) (hi : i < 2 ^ (2 * t + 2)) :
    (i, bitrev (2 * t + 2) i) ∈ swapsToWrites (reindexSwaps (2 ^ (2 * t + 2))) ∨
      (bitrev (2 * t + 2) i = i ∧ i ∈ fixedPow4 t) := by
  obtain ⟨hdec, hlo, hc, hh3⟩ := enc_decompose t 2 i hi
  clear hi
  obtain ⟨lo, c, h3, hlo2, hc2a, hh3a, rfl⟩ :
      ∃ lo c h3, lo < 2 ^ t ∧ c < 2 ^ 2 ∧ h3 < 2 ^ t ∧ i = enc t 2 lo c h3 :=
    ⟨i % 2 ^ t, i / 2 ^ t % 2 ^ 2, i / 2 ^ (t + 2), hlo, hc, hh3, hdec⟩
  rw [bitrev_enc t 2 lo c h3 hlo2 hc2a]
  exact reindex_cover_pow4_aux t lo c h3 hlo2 hc2a hh3a

theorem reindex_cover_npow4_aux (t lo c h3 : ℕ) (hlo : lo < 2 ^ t) (hc : c < 2 ^ 1)
    (hh3 : h3 < 2 ^ t) :
    (enc t 1 lo c h3, enc t 1 (bitrev t h3) (bitrev 1 c) (bitrev t lo)) ∈
        swapsToWrites (reindexSwaps (2 ^ (2 * t + 1))) ∨
      (enc t 1 (bitrev t h3) (bitrev 1 c) (bitrev t lo) = enc t 1 lo c h3 ∧
        enc t 1 lo c h3 ∈ fixedNpow4 t) := by
  have hc2 : c < 2 := by simpa using hc
  have hrc : bitrev 1 c = c := by interval_cases c <;> rfl
  rw [hrc]
  rcases Nat.lt_trichotomy lo (bitrev t h3) with hlt | heq | hgt
  · left
    have hmem : swapNpow4 t lo (bitrev t h3) c ∈ reindexSwaps (2 ^ (2 * t + 1)) := by
      rw [reindexSwaps_npow4_eq]
      have hb := bitrev_lt t h3
      refine List.mem_flatMap.mpr ⟨bitrev t h3 - 1, List.mem_range.mpr (by omega), ?_⟩
      have hk : bitrev t h3 - 1 + 1 = bitrev t h3 := by omega
      rw [hk]
      refine List.mem_flatMap.mpr ⟨lo, List.mem_range.mpr hlt, ?_⟩
      interval_cases c <;> simp
    have hw := (mem_swapsToWrites_of_mem _ _ hmem).1
    have h1 : (swapNpow4 t lo (bitrev t h3) c).1 = enc t 1 lo c h3 := by
      show enc t 1 lo c (bitrev t (bitrev t h3)) = enc t 1 lo c h3
      rw [bitrev_bitrev t h3 hh3]
    rw [h1] at hw
    exact hw
  · right
    have hrl : bitrev t lo = h3 := by
      rw [heq]
      exact bitrev_bitrev t h3 hh3
    constructor
    · rw [← heq, hrl]
    · unfold fixedNpow4
      refine List.mem_flatMap.mpr ⟨h3, List.mem_range.mpr hh3, ?_⟩
      rw [← heq]
      interval_cases c <;> simp
  · left
    have hmem : swapNpow4 t (bitrev t h3) lo c ∈ reindexSwaps (2 ^ (2 * t + 1)) := by
      rw [reindexSwaps_npow4_eq]
      refine List.mem_flatMap.mpr ⟨lo - 1, List.mem_range.mpr (by omega), ?_⟩
      have hk : lo - 1 + 1 = lo := by omega
      rw [hk]
      refine List.mem_flatMap.mpr ⟨bitrev t h3, List.mem_range.mpr hgt, ?_⟩
      interval_cases c <;> simp
    have hw := (mem_swapsToWrites_of_mem _ _ hmem).2
    have h2 : (swapNpow4 t (bitrev t h3) lo c).2 = enc t 1 lo c h3 := by
      show enc t 1 lo c (bitrev t (bitrev t h3)) = enc t 1 lo c h3
      rw [bitrev_bitrev t h3 hh3]
    rw [h2] at hw
    exact hw

theorem reindex_cover_npow4 (t i : ℕ) (hi : i < 2 ^ (2 * t + 1)) :
    (i, bitrev (2 * t + 1) i) ∈ swapsToWrites (reindexSwaps (2 ^ (2 * t + 1))) ∨
      (bitrev (2 * t + 1) i = i ∧ i ∈ fixedNpow4 t) := by
  obtain ⟨hdec, hlo, hc, hh3⟩ := enc_decompose t 1 i hi
  clear hi
  obtain ⟨lo, c, h3, hlo2, hc2a, hh3a, rfl⟩ :
      ∃ lo c h3, lo < 2 ^ t ∧ c < 2 ^ 1 ∧ h3 < 2 ^ t ∧ i = enc t 1 lo c h3 :=
    ⟨i % 2 ^ t, i / 2 ^ t % 2 ^ 1, i / 2 ^ (t + 1), hlo, hc, hh3, hdec⟩
  rw [bitrev_enc t 1 lo c h3 hlo2 hc2a]
  exact reindex_cover_npow4_aux t lo c h3 hlo2 hc2a hh3a

theorem reindexOut_cover_pow4_aux (t lo c h3 : ℕ) (hlo : lo < 2 ^ t) (hc : c < 2 ^ 2)
    (hh3 : h3 < 2 ^ t) :
    (enc t 2 lo c h3, enc t 2 (bitrev t h3) (bitrev 2 c) (bitrev t lo)) ∈
      reindexWrites (2 ^ (2 * t + 2)) := by
  have hc4 : c < 4 := by simpa using hc
  rcases Nat.lt_trichotomy lo (bitrev t h3) with hlt | heq | hgt
  · have h1 : swapPow4 t lo (bitrev t h3) c =
        (enc t 2 lo c h3, enc t 2 (bitrev t h3) (bitrev 2 c) (bitrev t lo)) := by
      unfold swapPow4
      rw [bitrev_bitrev t h3 hh3]
    rw [← h1, reindexWrites_pow4_eq]
    refine List.mem_flatMap.mpr ⟨bitrev t h3, List.mem_range.mpr (bitrev_lt t h3), ?_⟩
    refine List.mem_append_left _ (List.mem_flatMap.mpr ⟨lo, List.mem_range.mpr hlt, ?_⟩)
    interval_cases c <;> simp
  · have hrl : bitrev t lo = h3 := by
      rw [heq]
      exact bitrev_bitrev t h3 hh3
    rw [← heq, ← hrl, reindexWrites_pow4_eq]
    refine List.mem_flatMap.mpr ⟨lo, List.mem_range.mpr hlo, List.mem_append_right _ ?_⟩
    interval_cases c <;>
      simp [show bitrev 2 0 = 0 from rfl, show bitrev 2 1 = 2 from rfl,
        show bitrev 2 2 = 1 from rfl, show bitrev 2 3 = 3 from rfl]
  · have h1 : prswap (swapPow4 t (bitrev t h3) lo (bitrev 2 c)) =
        (enc t 2 lo c h3, enc t 2 (bitrev t h3) (bitrev 2 c) (bitrev t lo)) := by
      unfold prswap swapPow4
      rw [bitrev_bitrev 2 c hc, bitrev_bitrev t h3 hh3]
    rw [← h1, reindexWrites_pow4_eq]
    refine List.mem_flatMap.mpr ⟨lo, List.mem_range.mpr hlo, ?_⟩
    refine List.mem_append_left _ (List.mem_flatMap.mpr ⟨bitrev t h3, List.mem_range.mpr hgt, ?_⟩)
    interval_cases c <;>
      simp [show bitrev 2 0 = 0 from rfl, show bitrev 2 1 = 2 from rfl,
        show bitrev 2 2 = 1 from rfl, show bitrev 2 3 = 3 from rfl]

theorem reindexOut_cover_pow4 (t i : ℕ) (hi : i < 2 ^ (2 * t + 2)) :
    (i, bitrev (2 * t + 2) i) ∈ reindexWrites (2 ^ (2 * t + 2)) := by
  obtain ⟨hdec, hlo, hc, hh3⟩ := enc_decompose t 2 i hi
  clear hi
  obtain ⟨lo, c, h3, hlo2, hc2a, hh3a, rfl⟩ :
      ∃ lo c h3, lo < 2 ^ t ∧ c < 2 ^ 2 ∧ h3 < 2 ^ t ∧ i = enc t 2 lo c h3 :=
    ⟨i % 2 ^ t, i / 2 ^ t % 2 ^ 2, i / 2 ^ (t + 2), hlo, hc, hh3, hdec⟩
  rw [bitrev_enc t 2 lo c h3 hlo2 hc2a]
  exact reindexOut_cover_pow4_aux t lo c h3 hlo2 hc2a hh3a

theorem reindexOut_cover_npow4_aux (t lo c h3 : ℕ) (hlo : lo < 2 ^ t) (hc : c < 2 ^ 1)
    (hh3 : h3 < 2 ^ t) :
    (enc t 1 lo c h3, enc t 1 (bitrev t h3) (bitrev 1 c) (bitrev t lo)) ∈
      reindexWrites (2 ^ (2 * t + 1)) := by
  have hc2 : c < 2 := by simpa using hc
  have hrc : bitrev 1 c = c := by interval_cases c <;> rfl
  rw [hrc]
  rcases Nat.lt_trichotomy lo (bitrev t h3) with hlt | heq | hgt
  · have h1 : swapNpow4 t lo (bitrev t h3) c =
        (enc t 1 lo c h3, enc t 1 (bitrev t h3) c (bitrev t lo)) := by
      unfold swapNpow4
      rw [bitrev_bitrev t h3 hh3]
    rw [← h1, reindexWrites_npow4_eq]
    apply List.mem_append_right
    have hb := bitrev_lt t h3
    refine List.mem_flatMap.mpr ⟨bitrev t h3 - 1, List.mem_range.mpr (by omega), ?_⟩
    have hk : bitrev t h3 - 1 + 1 = bitrev t h3 := by omega
    rw [hk]
    refine List.mem_append_left _ (List.mem_flatMap.mpr ⟨lo, List.mem_range.mpr hlt, ?_⟩)
    interval_cases c <;> simp
  · have hrl : bitrev t lo = h3 := by
      rw [heq]
      exact bitrev_bitrev t h3 hh3
    rw [← heq, ← hrl, reindexWrites_npow4_eq]
    by_cases hlo0 : lo = 0
    · subst hlo0
      rw [bitrev_zero_val]
      apply List.mem_append_left
      interval_cases c <;> simp
    · apply List.mem_append_right
      refine List.mem_flatMap.mpr ⟨lo - 1, List.mem_range.mpr (by omega), ?_⟩
      have hk : lo - 1 + 1 = lo := by omega
      rw [hk]
      refine List.mem_append_right _ ?_
      interval_cases c <;> simp
  · have h1 : prswap (swapNpow4 t (bitrev t h3) lo c) =
        (enc t 1 lo c h3, enc t 1 (bitrev t h3) c (bitrev t lo)) := by
      unfold prswap swapNpow4
      rw [bitrev_bitrev t h3 hh3]
    rw [← h1, reindexWrites_npow4_eq]
    apply List.mem_append_right
    refine List.mem_flatMap.mpr ⟨lo - 1, List.mem_range.mpr (by omega), ?_⟩
    have hk : lo - 1 + 1 = lo := by omega
    rw [hk]
    refine List.mem_append_left _ (List.mem_flatMap.mpr ⟨bitrev t h3, List.mem_range.mpr hgt, ?_⟩)
    interval_cases c <;> simp

theorem reindexOut_cover_npow4 (t i : ℕ) (hi : i < 2 ^ (2 * t + 1)) :
    (i, bitrev (2 * t + 1) i) ∈ reindexWrites (2 ^ (2 * t + 1)) := by
  obtain ⟨hdec, hlo, hc, hh3⟩ := enc_decompose t 1 i hi
  clear hi
  obtain ⟨lo, c, h3, hlo2, hc2a, hh3a, rfl⟩ :
      ∃ lo c h3, lo < 2 ^ t ∧ c < 2 ^ 1 ∧ h3 < 2 ^ t ∧ i = enc t 1 lo c h3 :=
    ⟨i % 2 ^ t, i / 2 ^ t % 2 ^ 1, i / 2 ^ (t + 1), hlo, hc, hh3, hdec⟩
  rw [bitrev_enc t 1 lo c h3 hlo2 hc2a]
  exact reindexOut_cover_npow4_aux t lo c h3 hlo2 hc2a hh3a

theorem reindexSwaps_pow4_length (t : ℕ) :
    (reindexSwaps (2 ^ (2 * t + 2))).length + 2 ^ t = 2 * (2 ^ t * 2 ^ t) := by
  rw [reindexSwaps_pow4_eq, List.length_flatMap, Function.comp_def]
  have hmap : ((List.range (2 ^ t)).map fun k =>
      (((List.range k).flatMap fun j =>
        [swapPow4 t j k 0, swapPow4 t j k 1, swapPow4 t j k 2, swapPow4 t j k 3]) ++
        [swapPow4 t k k 1]).length) =
      (List.range (2 ^ t)).map fun k => 4 * k + 1 := by
    apply List.map_congr_left
    intro k _
    rw [List.length_append, List.length_flatMap, Function.comp_def]
    have h2 : ((List.range k).map fun j =>
        ([swapPow4 t j k 0, swapPow4 t j k 1, swapPow4 t j k 2, swapPow4 t j k 3]).length) =
        (List.range k).map fun _ => 4 := rfl
    rw [h2, sum_map_range_const]
    simp [Nat.mul_comm]
  rw [hmap]
  exact sum_map_range_4k1 (2 ^ t)

theorem reindexSwaps_npow4_length (t : ℕ) :
    (reindexSwaps (2 ^ (2 * t + 1))).length = (2 ^ t - 1) * (2 ^ t - 1 + 1) := by
  rw [reindexSwaps_npow4_eq, List.length_flatMap, Function.comp_def]
  have hmap : ((List.range (2 ^ t - 1)).map fun k0 =>
      ((List.range (k0 + 1)).flatMap fun j =>
        [swapNpow4 t j (k0 + 1) 0, swapNpow4 t j (k0 + 1) 1]).length) =
      (List.range (2 ^ t - 1)).map fun k0 => 2 * (k0 + 1) := by
    apply List.map_congr_left
    intro k0 _
    rw [List.length_flatMap, Function.comp_def]
    have h2 : ((List.range (k0 + 1)).map fun j =>
        ([swapNpow4 t j (k0 + 1) 0, swapNpow4 t j (k0 + 1) 1]).length) =
        (List.range (k0 + 1)).map fun _ => 2 := rfl
    rw [h2, sum_map_range_const]
  rw [hmap]
  exact sum_map_range_2k2 (2 ^ t - 1)

theorem fixedPow4_length (t : ℕ) : (fixedPow4 t).length = 2 * 2 ^ t := by
  unfold fixedPow4
  rw [List.length_flatMap, Function.comp_def]
  have h2 : ((List.range (2 ^ t)).map fun h =>
      ([enc t 2 (bitrev t h) 0 h, enc t 2 (bitrev t h) 3 h]).length) =
      (List.range (2 ^ t)).map fun _ => 2 := rfl
  rw [h2, sum_map_range_const]

theorem fixedNpow4_length (t : ℕ) : (fixedNpow4 t).length = 2 * 2 ^ t := by
  unfold fixedNpow4
  rw [List.length_flatMap, Function.comp_def]
  have h2 : ((List.range (2 ^ t)).map fun h =>
      ([enc t 1 (bitrev t h) 0 h, enc t 1 (bitrev t h) 1 h]).length) =
      (List.range (2 ^ t)).map fun _ => 2 := rfl
  rw [h2, sum_map_range_const]

theorem pow_two_2t2 (t : ℕ) : 2 ^ (2 * t + 2) = 4 * (2 ^ t * 2 ^ t) := by
  rw [show 2 * t + 2 = t + (t + 2) from by omega, pow_add, pow_add]
  ring

theorem pow_two_2t1 (t : ℕ) : 2 ^ (2 * t + 1) = 2 * (2 ^ t * 2 ^ t) := by
  rw [show 2 * t + 1 = t + (t + 1) from by omega, pow_add, pow_add]
  ring

theorem reindex_dst_facts_pow4 (t : ℕ) :
    (endpoints (reindexSwaps (2 ^ (2 * t + 2))) ++ fixedPow4 t).Nodup ∧
      ∀ x ∈ endpoints (reindexSwaps (2 ^ (2 * t + 2))) ++ fixedPow4 t, x < 2 ^ (2 * t + 2) := by
  apply nodup_of_length_cover
  · rw [List.length_append, endpoints_length, fixedPow4_length]
    have hlen := reindexSwaps_pow4_length t
    have hN := pow_two_2t2 t
    omega
  · intro i hiN
    rcases reindex_cover_pow4 t i hiN with hmem | ⟨_, hfix⟩
    · apply List.mem_append_left
      have h := List.mem_map_of_mem Prod.fst hmem
      rw [swapsToWrites_fst] at h
      exact h
    · exact List.mem_append_right _ hfix

theorem reindex_dst_facts_npow4 (t : ℕ) :
    (endpoints (reindexSwaps (2 ^ (2 * t + 1))) ++ fixedNpow4 t).Nodup ∧
      ∀ x ∈ endpoints (reindexSwaps (2 ^ (2 * t + 1))) ++ fixedNpow4 t, x < 2 ^ (2 * t + 1) := by
  apply nodup_of_length_cover
  · rw [List.length_append, endpoints_length, fixedNpow4_length,
      reindexSwaps_npow4_length]
    have hpos : (0:ℕ) < 2 ^ t := pow_pos (by norm_num) t
    have hN := pow_two_2t1 t
    have hq : 2 ^ t - 1 + 1 = 2 ^ t := by omega
    rw [hq, Nat.sub_one_mul]
    have hle : 2 ^ t ≤ 2 ^ t * 2 ^ t := Nat.le_mul_of_pos_left _ hpos
    omega
  · intro i hiN
    rcases reindex_cover_npow4 t i hiN with hmem | ⟨_, hfix⟩
    · apply List.mem_append_left
      have h := List.mem_map_of_mem Prod.fst hmem
      rw [swapsToWrites_fst] at h
      exact h
    · exact List.mem_append_right _ hfix

/-- The in-place `reindex` performs full bit reversal on `N = 4^(t+1)`
(the `ispow4` branch): positions below `N` move to their bit-reversed
position, higher positions are untouched. -/
theorem reindex_pow4 (t : ℕ) (x : ℕ → ℂ) (i : ℕ) :
    reindex (2 ^ (2 * t + 2)) x i =
      if i < 2 ^ (2 * t + 2) then x (bitrev (2 * t + 2) i) else x i := by
  obtain ⟨hnd, hbound⟩ := reindex_dst_facts_pow4 t
  rw [List.nodup_append] at hnd
  unfold reindex
  rw [applySwaps_eq_applyWrites _ x hnd.1]
  by_cases hiN : i < 2 ^ (2 * t + 2)
  · rw [if_pos hiN]
    rcases reindex_cover_pow4 t i hiN with hmem | ⟨hfixv, hfixm⟩
    · exact applyWrites_mem _ x x i _ (by rw [swapsToWrites_fst]; exact hnd.1) hmem
    · rw [hfixv]
      apply applyWrites_not_mem
      intro p hp hc
      have hpe : p.1 ∈ endpoints (reindexSwaps (2 ^ (2 * t + 2))) := by
        rw [← swapsToWrites_fst]
        exact List.mem_map_of_mem Prod.fst hp
      rw [hc] at hpe
      exact hnd.2.2 hpe hfixm
  · rw [if_neg hiN]
    apply applyWrites_not_mem
    intro p hp hc
    have hpe : p.1 ∈ endpoints (reindexSwaps (2 ^ (2 * t + 2))) := by
      rw [← swapsToWrites_fst]
      exact List.mem_map_of_mem Prod.fst hp
    have := hbound p.1 (List.mem_append_left _ hpe)
    omega

/-- The in-place `reindex` performs full bit reversal on `N = 2 * 4^t`
(the non-`ispow4` branch). -/
theorem reindex_npow4 (t : ℕ) (x : ℕ → ℂ) (i : ℕ) :
    reindex (2 ^ (2 * t + 1)) x i =
      if i < 2 ^ (2 * t + 1) then x (bitrev (2 * t + 1) i) else x i := by
  obtain ⟨hnd, hbound⟩ := reindex_dst_facts_npow4 t
  rw [List.nodup_append] at hnd
  unfold reindex
  rw [applySwaps_eq_applyWrites _ x hnd.1]
  by_cases hiN : i < 2 ^ (2 * t + 1)
  · rw [if_pos hiN]
    rcases reindex_cover_npow4 t i hiN with hmem | ⟨hfixv, hfixm⟩
    · exact applyWrites_mem _ x x i _ (by rw [swapsToWrites_fst]; exact hnd.1) hmem
    · rw [hfixv]
      apply applyWrites_not_mem
      intro p hp hc
      have hpe : p.1 ∈ endpoints (reindexSwaps (2 ^ (2 * t + 1))) := by
        rw [← swapsToWrites_fst]
        exact List.mem_map_of_mem Prod.fst hp
      rw [hc] at hpe
      exact hnd.2.2 hpe hfixm
  · rw [if_neg hiN]
    apply applyWrites_not_mem
    intro p hp hc
    have hpe : p.1 ∈ endpoints (reindexSwaps (2 ^ (2 * t + 1))) := by
      rw [← swapsToWrites_fst]
      exact List.mem_map_of_mem Prod.fst hp
    have := hbound p.1 (List.mem_append_left _ hpe)
    omega

theorem reindexWrites_pow4_length (t : ℕ) :
    (reindexWrites (2 ^ (2 * t + 2))).length = 2 ^ (2 * t + 2) := by
  rw [reindexWrites_pow4_eq, List.length_flatMap, Function.comp_def]
  have hmap : ((List.range (2 ^ t)).map fun k =>
      (((List.range k).flatMap fun j =>
        [swapPow4 t j k 0, prswap (swapPow4 t j k 0),
         swapPow4 t j k 1, prswap (swapPow4 t j k 1),
         swapPow4 t j k 2, prswap (swapPow4 t j k 2),
         swapPow4 t j k 3, prswap (swapPow4 t j k 3)]) ++
        [(enc t 2 k 0 (bitrev t k), enc t 2 k 0 (bitrev t k)),
         (enc t 2 k 1 (bitrev t k), enc t 2 k 2 (bitrev t k)),
         (enc t 2 k 2 (bitrev t k), enc t 2 k 1 (bitrev t k)),
         (enc t 2 k 3 (bitrev t k), enc t 2 k 3 (bitrev t k))]).length) =
      (List.range (2 ^ t)).map fun k => 8 * k + 4 := by
    apply List.map_congr_left
    intro k _
    rw [List.length_append, List.length_flatMap, Function.comp_def]
    have h2 : ((List.range k).map fun j =>
        ([swapPow4 t j k 0, prswap (swapPow4 t j k 0),
          swapPow4 t j k 1, prswap (swapPow4 t j k 1),
          swapPow4 t j k 2, prswap (swapPow4 t j k 2),
          swapPow4 t j k 3, prswap (swapPow4 t j k 3)]).length) =
        (List.range k).map fun _ => 8 := rfl
    rw [h2, sum_map_range_const]
    simp [Nat.mul_comm]
  rw [hmap, sum_map_range_8k4, pow_two_2t2]

theorem reindexWrites_npow4_length (t : ℕ) :
    (reindexWrites (2 ^ (2 * t + 1))).length = 2 ^ (2 * t + 1) := by
  rw [reindexWrites_npow4_eq, List.length_append, List.length_flatMap, Function.comp_def]
  have hmap : ((List.range (2 ^ t - 1)).map fun k0 =>
      (((List.range (k0 + 1)).flatMap fun j =>
        [swapNpow4 t j (k0 + 1) 0, prswap (swapNpow4 t j (k0 + 1) 0),
         swapNpow4 t j (k0 + 1) 1, prswap (swapNpow4 t j (k0 + 1) 1)]) ++
        [(enc t 1 (k0 + 1) 0 (bitrev t (k0 + 1)), enc t 1 (k0 + 1) 0 (bitrev t (k0 + 1))),
         (enc t 1 (k0 + 1) 1 (bitrev t (k0 + 1)), enc t 1 (k0 + 1) 1 (bitrev t (k0 + 1)))]).length) =
      (List.range (2 ^ t - 1)).map fun k0 => 4 * (k0 + 1) + 2 := by
    apply List.map_congr_left
    intro k0 _
    rw [List.length_append, List.length_flatMap, Function.comp_def]
    have h2 : ((List.range (k0 + 1)).map fun j =>
        ([swapNpow4 t j (k0 + 1) 0, prswap (swapNpow4 t j (k0 + 1) 0),
          swapNpow4 t j (k0 + 1) 1, prswap (swapNpow4 t j (k0 + 1) 1)]).length) =
        (List.range (k0 + 1)).map fun _ => 4 := rfl
    rw [h2, sum_map_range_const]
    simp [Nat.mul_comm]
  rw [hmap, sum_map_range_4k6]
  simp only [List.length_cons, List.length_nil]
  have hpos : (0:ℕ) < 2 ^ t := pow_pos (by norm_num) t
  have hN := pow_two_2t1 t
  obtain ⟨q, hq⟩ : ∃ q, 2 ^ t = q + 1 := ⟨2 ^ t - 1, by omega⟩
  rw [hN, hq]
  simp only [Nat.add_sub_cancel]
  have hr : 2 * ((q + 1) * (q + 1)) = 2 * (q * q) + 4 * q + 2 := by ring
  omega

theorem reindexOut_dst_facts_pow4 (t : ℕ) :
    ((reindexWrites (2 ^ (2 * t + 2))).map Prod.fst).Nodup ∧
      ∀ x ∈ (reindexWrites (2 ^ (2 * t + 2))).map Prod.fst, x < 2 ^ (2 * t + 2) := by
  apply nodup_of_length_cover
  · rw [List.length_map, reindexWrites_pow4_length]
  · intro i hiN
    exact List.mem_map_of_mem Prod.fst (reindexOut_cover_pow4 t i hiN)

theorem reindexOut_dst_facts_npow4 (t : ℕ) :
    ((reindexWrites (2 ^ (2 * t + 1))).map Prod.fst).Nodup ∧
      ∀ x ∈ (reindexWrites (2 ^ (2 * t + 1))).map Prod.fst, x < 2 ^ (2 * t + 1) := by
  apply nodup_of_length_cover
  · rw [List.length_map, reindexWrites_npow4_length]
  · intro i hiN
    exact List.mem_map_of_mem Prod.fst (reindexOut_cover_npow4 t i hiN)

/-- The out-of-place `reindex(in, out)` performs full bit reversal on
`N = 4^(t+1)`; unwritten positions keep the old output contents. -/
theorem reindexOut_pow4 (t : ℕ) (xin out0 : ℕ → ℂ) (i : ℕ) :
    reindexOut (2 ^ (2 * t + 2)) xin out0 i =
      if i < 2 ^ (2 * t + 2) then xin (bitrev (2 * t + 2) i) else out0 i := by
  obtain ⟨hnd, hbound⟩ := reindexOut_dst_facts_pow4 t
  unfold reindexOut
  by_cases hiN : i < 2 ^ (2 * t + 2)
  · rw [if_pos hiN]
    exact applyWrites_mem _ xin out0 i _ hnd (reindexOut_cover_pow4 t i hiN)
  · rw [if_neg hiN]
    apply applyWrites_not_mem
    intro p hp hc
    have := hbound p.1 (List.mem_map_of_mem Prod.fst hp)
    omega

/-- The out-of-place `reindex(in, out)` performs full bit reversal on
`N = 2 * 4^t`; unwritten positions keep the old output contents. -/
theorem reindexOut_npow4 (t : ℕ) (xin out0 : ℕ → ℂ) (i : ℕ) :
    reindexOut (2 ^ (2 * t + 1)) xin out0 i =
      if i < 2 ^ (2 * t + 1) then xin (bitrev (2 * t + 1) i) else out0 i := by
  obtain ⟨hnd, hbound⟩ := reindexOut_dst_facts_npow4 t
  unfold reindexOut
  by_cases hiN : i < 2 ^ (2 * t + 1)
  · rw [if_pos hiN]
    exact applyWrites_mem _ xin out0 i _ hnd (reindexOut_cover_npow4 t i hiN)
  · rw [if_neg hiN]
    apply applyWrites_not_mem
    intro p hp hc
    have := hbound p.1 (List.mem_map_of_mem Prod.fst hp)
    omega

/-- Every size `2^p` with `p ≥ 1` falls into one of the two reindex
branches, so the in-place `reindex` is bit reversal on `log2 N` bits. -/
theorem reindex_eq (p : ℕ) (hp : 1 ≤ p) (x : ℕ → ℂ) (i : ℕ) :
    reindex (2 ^ p) x i = if i < 2 ^ p then x (bitrev p i) else x i := by
  rcases Nat.even_or_odd p with ⟨u, hu⟩ | ⟨u, hu⟩
  · have hu1 : 1 ≤ u := by omega
    have hp2 : p = 2 * (u - 1) + 2 := by omega
    rw [hp2]
    exact reindex_pow4 (u - 1) x i
  · rw [show p = 2 * u + 1 from hu]
    exact reindex_npow4 u x i

/-- Every size `2^p` with `p ≥ 1` falls into one of the two reindex
branches, so the out-of-place `reindex` is bit reversal on `log2 N` bits. -/
theorem reindexOut_eq (p : ℕ) (hp : 1 ≤ p) (xin out0 : ℕ → ℂ) (i : ℕ) :
    reindexOut (2 ^ p) xin out0 i =
      if i < 2 ^ p then xin (bitrev p i) else out0 i := by
  rcases Nat.even_or_odd p with ⟨u, hu⟩ | ⟨u, hu⟩
  · have hu1 : 1 ≤ u := by omega
    have hp2 : p = 2 * (u - 1) + 2 := by omega
    rw [hp2]
    exact reindexOut_pow4 (u - 1) xin out0 i
  · rw [show p = 2 * u + 1 from hu]
    exact reindexOut_npow4 u xin out0 i

/-! ## Roots of unity and the value of the radix-4 butterfly -/

noncomputable section

/-- The primitive root used by the transform of direction `d`:
`w N d = exp(2*pi*d/N * I)`. -/
def w (N : ℕ) (d : ℤ) : ℂ := Complex.exp ((2 * π * d / N : ℝ) * Complex.I)

end

theorem w_pow (N : ℕ) (d : ℤ) (n : ℕ) :
    w N d ^ n = Complex.exp ((((n : ℝ) * (2 * π * d / N)) : ℝ) * Complex.I) := by
  rw [w, ← Complex.exp_nat_mul]
  congr 1
  push_cast
  ring

theorem w_pow_self (N : ℕ) (d : ℤ) (hN : 0 < N) : w N d ^ N = 1 := by
  rw [w_pow]
  have hN' : (N:ℝ) ≠ 0 := Nat.cast_ne_zero.mpr (by omega)
  have h : ((N:ℝ) * (2 * π * d / N)) = (d:ℝ) * (2 * π) := by
    field_simp
    ring
  rw [h]
  have h2 := Complex.exp_int_mul_two_pi_mul_I d
  have h3 : (((d:ℝ) * (2 * π) : ℝ) : ℂ) * Complex.I = (d:ℂ) * (2 * (π:ℂ) * Complex.I) := by
    push_cast
    ring
  rw [h3]
  exact h2

theorem w_four (M : ℕ) (d : ℤ) (hM : 0 < M) : w (4 * M) d ^ 4 = w M d := by
  rw [w_pow, w]
  congr 2
  have hM' : (M:ℝ) ≠ 0 := Nat.cast_ne_zero.mpr (by omega)
  push_cast
  field_simp
  ring

theorem w_quarter (M : ℕ) (d : ℤ) (hM : 0 < M) (hd : d = 1 ∨ d = -1) :
    w (4 * M) d ^ M = (d:ℂ) * Complex.I := by
  rw [w_pow]
  have hM' : (M:ℝ) ≠ 0 := Nat.cast_ne_zero.mpr (by omega)
  have h : ((M:ℝ) * (2 * π * d / ((4 * M : ℕ):ℝ))) = (d:ℝ) * (π / 2) := by
    push_cast
    field_simp
    ring
  rw [h]
  rcases hd with h1 | h1 <;> subst h1
  · rw [show ((((1:ℤ):ℝ) * (π / 2) : ℝ) : ℂ) = ((π / 2 : ℝ) : ℂ) from by push_cast; ring,
      Complex.exp_mul_I, ← Complex.ofReal_cos, ← Complex.ofReal_sin]
    simp [Real.cos_pi_div_two, Real.sin_pi_div_two]
  · rw [show ((((-1:ℤ):ℝ) * (π / 2) : ℝ) : ℂ) = ((-(π / 2) : ℝ) : ℂ) from by push_cast; ring,
      Complex.exp_mul_I, ← Complex.ofReal_cos, ← Complex.ofReal_sin]
    simp [Real.cos_pi_div_two, Real.sin_pi_div_two]

theorem w_two (d : ℤ) (hd : d = 1 ∨ d = -1) : w 2 d = -1 := by
  rw [w]
  rcases hd with h1 | h1 <;> subst h1
  · rw [show ((2 * π * ((1:ℤ):ℝ) / ((2:ℕ):ℝ) : ℝ) : ℂ) = ((π : ℝ) : ℂ) from by push_cast; ring,
      Complex.exp_mul_I, ← Complex.ofReal_cos, ← Complex.ofReal_sin]
    simp [Real.cos_pi, Real.sin_pi]
  · rw [show ((2 * π * ((-1:ℤ):ℝ) / ((2:ℕ):ℝ) : ℝ) : ℂ) = ((-π : ℝ) : ℂ) from by push_cast; ring,
      Complex.exp_mul_I, ← Complex.ofReal_cos, ← Complex.ofReal_sin]
    simp [Real.cos_pi, Real.sin_pi]

theorem twiddle4_exp (a : ℝ) (N : ℕ) (d : ℤ) (k : ℕ) (hk : k < N / 4) :
    (twiddle4 a N d).getD k 0 =
      Complex.exp (((2 * π * d / N * a * k : ℝ) : ℂ) * Complex.I) := by
  rw [twiddle4_getD a N d k hk, Complex.mk_eq_add_mul_I, Complex.exp_mul_I,
    ← Complex.ofReal_cos, ← Complex.ofReal_sin]

theorem twiddle4_w (m : ℕ) (N : ℕ) (d : ℤ) (k : ℕ) (hk : k < N / 4) :
    (twiddle4 (m : ℝ) N d).getD k 0 = w N d ^ (m * k) := by
  rw [twiddle4_exp _ _ _ _ hk, w_pow]
  congr 2
  push_cast
  ring

/-- One recursive sub-transform of `Radix4`: the value placed at position `i`
before the combine step. -/
noncomputable def yv (D : ℤ) (q : ℕ) (x : ℕ → ℂ) (i : ℕ) : ℂ :=
  if i < 2 ^ (q + 2) then
    radix4 D (2 ^ q) (fun j => x (2 ^ q * (i / 2 ^ q) + j)) (i % 2 ^ q)
  else x i

/-- The `a2` value of the combine step (second quarter, table `t2`). -/
noncomputable def a2v (D : ℤ) (q : ℕ) (x : ℕ → ℂ) (i0 : ℕ) : ℂ :=
  if i0 = 0 then yv D q x (i0 + 2 ^ q)
  else mul (yv D q x (i0 + 2 ^ q)) ((Radix4.t2 (2 ^ (q + 2)) D).getD i0 0)

/-- The `a1` value of the combine step (third quarter, table `t1`). -/
noncomputable def a1v (D : ℤ) (q : ℕ) (x : ℕ → ℂ) (i0 : ℕ) : ℂ :=
  if i0 = 0 then yv D q x (i0 + 2 * 2 ^ q)
  else mul (yv D q x (i0 + 2 * 2 ^ q)) ((Radix4.t1 (2 ^ (q + 2)) D).getD i0 0)

/-- The `a3` value of the combine step (fourth quarter, table `t3`). -/
noncomputable def a3v (D : ℤ) (q : ℕ) (x : ℕ → ℂ) (i0 : ℕ) : ℂ :=
  if i0 = 0 then yv D q x (i0 + 3 * 2 ^ q)
  else mul (yv D q x (i0 + 3 * 2 ^ q)) ((Radix4.t3 (2 ^ (q + 2)) D).getD i0 0)

theorem pow_q2_eq (q : ℕ) : (2:ℕ) ^ (q + 2) = 4 * 2 ^ q := by
  rw [pow_add]
  ring

theorem pow_q2_div4 (q : ℕ) : (2:ℕ) ^ (q + 2) / 4 = 2 ^ q := by
  rw [pow_q2_eq, Nat.mul_div_cancel_left _ (by norm_num)]

/-- Unfolding of one level of `radix4` at a power-of-two size `≥ 4`. -/
theorem radix4_pow_step (D : ℤ) (q : ℕ) (x : ℕ → ℂ) (k : ℕ) (hk : k < 2 ^ (q + 2)) :
    radix4 D (2 ^ (q + 2)) x k =
      if k / 2 ^ q = 0 then
        yv D q x (k % 2 ^ q) + a2v D q x (k % 2 ^ q) +
          (a1v D q x (k % 2 ^ q) + a3v D q x (k % 2 ^ q))
      else if k / 2 ^ q = 1 then
        yv D q x (k % 2 ^ q) - a2v D q x (k % 2 ^ q) +
          direction D (a1v D q x (k % 2 ^ q) - a3v D q x (k % 2 ^ q))
      else if k / 2 ^ q = 2 then
        yv D q x (k % 2 ^ q) + a2v D q x (k % 2 ^ q) -
          (a1v D q x (k % 2 ^ q) + a3v D q x (k % 2 ^ q))
      else
        yv D q x (k % 2 ^ q) - a2v D q x (k % 2 ^ q) -
          direction D (a1v D q x (k % 2 ^ q) - a3v D q x (k % 2 ^ q)) := by
  obtain ⟨R, hR⟩ : ∃ R, 2 ^ (q + 2) = R + 3 := by
    refine ⟨2 ^ (q + 2) - 3, ?_⟩
    have h4 : (4:ℕ) ≤ 2 ^ (q + 2) := by
      calc (4:ℕ) = 2 ^ 2 := by norm_num
      _ ≤ 2 ^ (q + 2) := Nat.pow_le_pow_right (by norm_num) (by omega)
    omega
  rw [hR] at hk
  rw [hR]
  simp only [radix4]
  rw [if_pos hk]
  have hdiv : (R + 3) / 4 = 2 ^ q := by
    rw [← hR]
    exact pow_q2_div4 q
  simp only [hdiv, ← hR, pow_q2_div4, yv, a2v, a1v, a3v]

theorem sum_range_mul_split (M : ℕ) (f : ℕ → ℂ) :
    ∑ j ∈ Finset.range (4 * M), f j =
      ∑ r ∈ Finset.range 4, ∑ u ∈ Finset.range M, f (r + 4 * u) := by
  induction M with
  | zero => simp
  | succ M ih =>
    rw [show 4 * (M + 1) = (4 * M + 1 + 1 + 1) + 1 from by ring, Finset.sum_range_succ,
      Finset.sum_range_succ, Finset.sum_range_succ, Finset.sum_range_succ, ih]
    simp only [Finset.sum_range_succ]
    simp only [Finset.sum_range_zero, zero_add]
    rw [show 1 + 4 * M = 4 * M + 1 from by ring,
      show 2 + 4 * M = 4 * M + 2 from by ring, show 3 + 4 * M = 4 * M + 3 from by ring]
    ring

/-- The full DFT sum at bin `k0 + c * 2^q`, regrouped by residue class
modulo 4 of the time index. -/
theorem dft_sum_split (d : ℤ) (hd : d = 1 ∨ d = -1) (q : ℕ) (x : ℕ → ℂ) (k0 c : ℕ) :
    ∑ j ∈ Finset.range (2 ^ (q + 2)), x j * w (2 ^ (q + 2)) d ^ (j * (k0 + c * 2 ^ q)) =
      ∑ r ∈ Finset.range 4, (w (2 ^ (q + 2)) d ^ (r * k0) * ((d:ℂ) * Complex.I) ^ (r * c) *
        ∑ u ∈ Finset.range (2 ^ q), x (r + 4 * u) * w (2 ^ q) d ^ (u * k0)) := by
  have hM : (0:ℕ) < 2 ^ q := pow_pos (by norm_num) q
  rw [pow_q2_eq, sum_range_mul_split]
  apply Finset.sum_congr rfl
  intro r _
  rw [Finset.mul_sum]
  apply Finset.sum_congr rfl
  intro u _
  have h1 : w (4 * 2 ^ q) d ^ ((r + 4 * u) * (k0 + c * 2 ^ q)) =
      w (4 * 2 ^ q) d ^ (r * k0) * (w (4 * 2 ^ q) d ^ (2 ^ q)) ^ (r * c) *
        (w (4 * 2 ^ q) d ^ 4) ^ (u * k0) * (w (4 * 2 ^ q) d ^ (4 * 2 ^ q)) ^ (u * c) := by
    rw [← pow_mul, ← pow_mul, ← pow_mul, ← pow_add, ← pow_add, ← pow_add]
    congr 1
    ring
  rw [h1, w_quarter (2 ^ q) d hM hd, w_four (2 ^ q) d hM, w_pow_self (4 * 2 ^ q) d (by omega)]
  ring

theorem sum_range_four (f : ℕ → ℂ) :
    ∑ r ∈ Finset.range 4, f r = f 0 + f 1 + f 2 + f 3 := by
  rw [Finset.sum_range_succ, Finset.sum_range_succ, Finset.sum_range_succ, Finset.sum_range_one]

/-- Fed a bit-reversed buffer, the radix-4 engine computes the DFT sum with
kernel `w N d` at every bin below `N = 2^p`. -/
theorem radix4_bitrev (d : ℤ) (hd : d = 1 ∨ d = -1) :
    ∀ p : ℕ, ∀ x g : ℕ → ℂ, (∀ i, i < 2 ^ p → g i = x (bitrev p i)) →
      ∀ k, k < 2 ^ p →
        radix4 d (2 ^ p) g k = ∑ j ∈ Finset.range (2 ^ p), x j * w (2 ^ p) d ^ (j * k) := by
  intro p
  induction p using Nat.strong_induction_on with
  | _ p ih =>
    intro x g hg k hk
    rcases Nat.lt_or_ge p 2 with hp2 | hp2
    · interval_cases p
      · have hk0 : k = 0 := by
          have h1 : (2:ℕ) ^ 0 = 1 := by norm_num
          omega
        subst hk0
        have h1 : radix4 d (2 ^ 0) g 0 = g 0 := by
          norm_num
          simp [radix4]
        rw [h1, hg 0 (by norm_num)]
        rw [show (2:ℕ) ^ 0 = 1 from by norm_num, Finset.sum_range_one]
        simp [show bitrev 0 0 = 0 from rfl]
      · rw [show (2:ℕ) ^ 1 = 2 from by norm_num] at hk ⊢
        rw [Finset.sum_range_succ, Finset.sum_range_one]
        interval_cases k
        · have h1 : radix4 d 2 g 0 = g 0 + g 1 := by simp [radix4]
          rw [h1, hg 0 (by norm_num), hg 1 (by norm_num)]
          simp [show bitrev 1 0 = 0 from rfl, show bitrev 1 1 = 1 from rfl]
        · have h1 : radix4 d 2 g 1 = g 0 - g 1 := by simp [radix4]
          rw [h1, hg 0 (by norm_num), hg 1 (by norm_num), w_two d hd]
          norm_num [show bitrev 1 0 = 0 from rfl, show bitrev 1 1 = 1 from rfl]
          ring
    · obtain ⟨q, rfl⟩ : ∃ q, p = q + 2 := ⟨p - 2, by omega⟩
      have hM : (0:ℕ) < 2 ^ q := pow_pos (by norm_num) q
      have hN4 : (2:ℕ) ^ (q + 2) = 4 * 2 ^ q := pow_q2_eq q
      have hk0 : k % 2 ^ q < 2 ^ q := Nat.mod_lt _ hM
      have hcm : 2 ^ q * 4 = 4 * 2 ^ q := Nat.mul_comm _ _
      have hc4 : k / 2 ^ q < 4 := by
        rw [Nat.div_lt_iff_lt_mul hM]
        omega
      have hksplit : k = k % 2 ^ q + k / 2 ^ q * 2 ^ q := by
        have h := Nat.mod_add_div k (2 ^ q)
        have hc : 2 ^ q * (k / 2 ^ q) = k / 2 ^ q * 2 ^ q := Nat.mul_comm _ _
        omega
      have hy : ∀ c' : ℕ, c' < 4 →
          yv d q g (k % 2 ^ q + c' * 2 ^ q) =
            ∑ u ∈ Finset.range (2 ^ q),
              x (bitrev 2 c' + 4 * u) * w (2 ^ q) d ^ (u * (k % 2 ^ q)) := by
        intro c' hc'
        have hlt : k % 2 ^ q + c' * 2 ^ q < 2 ^ (q + 2) := by
          have h1 : c' * 2 ^ q ≤ 3 * 2 ^ q := Nat.mul_le_mul_right _ (by omega)
          omega
        simp only [yv]
        rw [if_pos hlt]
        have hdivq : (k % 2 ^ q + c' * 2 ^ q) / 2 ^ q = c' := by
          rw [Nat.add_mul_div_right _ _ hM, Nat.div_eq_of_lt hk0]
          omega
        have hmodq : (k % 2 ^ q + c' * 2 ^ q) % 2 ^ q = k % 2 ^ q := by
          rw [Nat.add_mul_mod_self_right]
          exact Nat.mod_eq_of_lt hk0
        rw [hdivq, hmodq]
        have hinner : ∀ j, j < 2 ^ q →
            g (2 ^ q * c' + j) = x (bitrev 2 c' + 4 * bitrev q j) := by
          intro j hj
          have hlt2 : 2 ^ q * c' + j < 2 ^ (q + 2) := by
            have h1 : 2 ^ q * c' ≤ 2 ^ q * 3 := Nat.mul_le_mul_left _ (by omega)
            have h2 : 2 ^ q * 3 = 3 * 2 ^ q := Nat.mul_comm _ _
            omega
          rw [hg _ hlt2]
          congr 1
          rw [show 2 ^ q * c' + j = j + 2 ^ q * c' from by omega, bitrev_split q 2 j c' hj]
          norm_num
        exact ih q (by omega) (fun u => x (bitrev 2 c' + 4 * u))
          (fun j => g (2 ^ q * c' + j)) hinner (k % 2 ^ q) hk0
      have ht1 : (Radix4.t1 (2 ^ (q + 2)) d).getD (k % 2 ^ q) 0 =
          w (2 ^ (q + 2)) d ^ (k % 2 ^ q) := by
        have h := twiddle4_w 1 (2 ^ (q + 2)) d (k % 2 ^ q) (by rw [pow_q2_div4]; exact hk0)
        rw [show (((1:ℕ)):ℝ) = (1:ℝ) from by norm_num] at h
        rw [Radix4.t1, h, one_mul]
      have ht2 : (Radix4.t2 (2 ^ (q + 2)) d).getD (k % 2 ^ q) 0 =
          w (2 ^ (q + 2)) d ^ (2 * (k % 2 ^ q)) := by
        have h := twiddle4_w 2 (2 ^ (q + 2)) d (k % 2 ^ q) (by rw [pow_q2_div4]; exact hk0)
        rw [show (((2:ℕ)):ℝ) = (2:ℝ) from by norm_num] at h
        rw [Radix4.t2, h]
      have ht3 : (Radix4.t3 (2 ^ (q + 2)) d).getD (k % 2 ^ q) 0 =
          w (2 ^ (q + 2)) d ^ (3 * (k % 2 ^ q)) := by
        have h := twiddle4_w 3 (2 ^ (q + 2)) d (k % 2 ^ q) (by rw [pow_q2_div4]; exact hk0)
        rw [show (((3:ℕ)):ℝ) = (3:ℝ) from by norm_num] at h
        rw [Radix4.t3, h]
      have ha0 : yv d q g (k % 2 ^ q) =
          ∑ u ∈ Finset.range (2 ^ q), x (4 * u) * w (2 ^ q) d ^ (u * (k % 2 ^ q)) := by
        have h := hy 0 (by norm_num)
        rw [show k % 2 ^ q + 0 * 2 ^ q = k % 2 ^ q from by omega,
          show bitrev 2 0 = 0 from rfl] at h
        simpa using h
      have ha2 : a2v d q g (k % 2 ^ q) =
          w (2 ^ (q + 2)) d ^ (2 * (k % 2 ^ q)) *
            ∑ u ∈ Finset.range (2 ^ q), x (2 + 4 * u) * w (2 ^ q) d ^ (u * (k % 2 ^ q)) := by
        have h := hy 1 (by norm_num)
        rw [show bitrev 2 1 = 2 from rfl, one_mul] at h
        simp only [a2v]
        by_cases h0 : k % 2 ^ q = 0
        · rw [if_pos h0, h0]
          rw [h0] at h
          rw [h]
          norm_num
        · rw [if_neg h0, mul_eq_mul, ht2, h]
          ring
      have ha1 : a1v d q g (k % 2 ^ q) =
          w (2 ^ (q + 2)) d ^ (k % 2 ^ q) *
            ∑ u ∈ Finset.range (2 ^ q), x (1 + 4 * u) * w (2 ^ q) d ^ (u * (k % 2 ^ q)) := by
        have h := hy 2 (by norm_num)
        rw [show bitrev 2 2 = 1 from rfl, show (2:ℕ) * 2 ^ q = 2 * 2 ^ q from rfl] at h
        simp only [a1v]
        by_cases h0 : k % 2 ^ q = 0
        · rw [if_pos h0, h0]
          rw [h0] at h
          rw [h]
          norm_num
        · rw [if_neg h0, mul_eq_mul, ht1, h]
          ring
      have ha3 : a3v d q g (k % 2 ^ q) =
          w (2 ^ (q + 2)) d ^ (3 * (k % 2 ^ q)) *
            ∑ u ∈ Finset.range (2 ^ q), x (3 + 4 * u) * w (2 ^ q) d ^ (u * (k % 2 ^ q)) := by
        have h := hy 3 (by norm_num)
        rw [show bitrev 2 3 = 3 from rfl] at h
        simp only [a3v]
        by_cases h0 : k % 2 ^ q = 0
        · rw [if_pos h0, h0]
          rw [h0] at h
          rw [h]
          norm_num
        · rw [if_neg h0, mul_eq_mul, ht3, h]
          ring
      have hZ2 : ((d:ℂ) * Complex.I) ^ 2 = -1 := by
        rcases hd with h | h <;> subst h <;> norm_num [mul_pow, Complex.I_sq]
      have hZ3 : ((d:ℂ) * Complex.I) ^ 3 = -((d:ℂ) * Complex.I) := by
        rw [pow_succ, hZ2]
        ring
      have hZ4 : ((d:ℂ) * Complex.I) ^ 4 = 1 := by
        rw [show (4:ℕ) = 2 + 2 from by norm_num, pow_add, hZ2]
        ring
      have hZ6 : ((d:ℂ) * Complex.I) ^ 6 = -1 := by
        rw [show (6:ℕ) = 4 + 2 from by norm_num, pow_add, hZ4, hZ2]
        ring
      have hZ9 : ((d:ℂ) * Complex.I) ^ 9 = (d:ℂ) * Complex.I := by
        rw [show (9:ℕ) = 6 + 3 from by norm_num, pow_add, hZ6, hZ3]
        ring
      rw [radix4_pow_step d q g k hk]
      conv_rhs => rw [hksplit]
      rw [dft_sum_split d hd q x (k % 2 ^ q) (k / 2 ^ q), sum_range_four]
      obtain ⟨c, hceq⟩ : ∃ c, k / 2 ^ q = c := ⟨_, rfl⟩
      rw [hceq] at hc4 ⊢
      interval_cases c
      · rw [if_pos rfl, ha0, ha2, ha1, ha3]
        norm_num
        ring
      · rw [if_neg (by norm_num), if_pos rfl, direction_eq_mul_I d hd, ha0, ha2, ha1, ha3]
        norm_num [hZ2, hZ3]
        ring
      · rw [if_neg (by norm_num), if_neg (by norm_num), if_pos rfl, ha0, ha2, ha1, ha3]
        norm_num [hZ2, hZ4, hZ6]
        ring
      · rw [if_neg (by norm_num), if_neg (by norm_num), if_neg (by norm_num),
          direction_eq_mul_I d hd, ha0, ha2, ha1, ha3]
        norm_num [hZ3, hZ6, hZ9]
        ring

theorem w_inv (N : ℕ) : w N 1 * w N (-1) = 1 := by
  rw [w, w, ← Complex.exp_add,
    show ((2 * π * ((1:ℤ):ℝ) / N : ℝ) : ℂ) * Complex.I +
        ((2 * π * ((-1:ℤ):ℝ) / N : ℝ) : ℂ) * Complex.I = 0 from by push_cast; ring,
    Complex.exp_zero]

/-- Orthogonality of the forward and inverse kernels: the cross sum is `N`
on the diagonal and `0` off it. -/
theorem sum_w_cross (N : ℕ) (hN : 0 < N) (i j : ℕ) (hi : i < N) (hj : j < N) :
    ∑ k ∈ Finset.range N, w N 1 ^ (k * i) * w N (-1) ^ (j * k) =
      if i = j then (N:ℂ) else 0 := by
  have hz : ∀ k : ℕ, w N 1 ^ (k * i) * w N (-1) ^ (j * k) =
      (w N 1 ^ i * w N (-1) ^ j) ^ k := by
    intro k
    rw [mul_pow, ← pow_mul, ← pow_mul, Nat.mul_comm i k, Nat.mul_comm j k]
  rw [Finset.sum_congr rfl fun k _ => hz k]
  by_cases hij : i = j
  · subst hij
    have h1 : w N 1 ^ i * w N (-1) ^ i = 1 := by
      rw [← mul_pow, w_inv, one_pow]
    rw [h1]
    simp
  · rw [if_neg hij]
    have hz2 : w N 1 ^ i * w N (-1) ^ j =
        Complex.exp ((2 * π * ((i:ℝ) - (j:ℝ)) / N : ℝ) * Complex.I) := by
      rw [w_pow, w_pow, ← Complex.exp_add]
      congr 1
      push_cast
      ring
    have hzne : w N 1 ^ i * w N (-1) ^ j ≠ 1 := by
      rw [hz2]
      intro h1
      rw [Complex.exp_eq_one_iff] at h1
      obtain ⟨n, hn⟩ := h1
      have h3 : ((2 * π * ((i:ℝ) - j) / N : ℝ) : ℂ) * Complex.I =
          (((n:ℝ) * (2 * π) : ℝ) : ℂ) * Complex.I := by
        rw [hn]
        push_cast
        ring
      have hI := mul_right_cancel₀ Complex.I_ne_zero h3
      have hR : 2 * π * ((i:ℝ) - j) / N = (n:ℝ) * (2 * π) :=
        Complex.ofReal_inj.mp hI
      have hπ : (π:ℝ) ≠ 0 := Real.pi_ne_zero
      have hNne : (N:ℝ) ≠ 0 := Nat.cast_ne_zero.mpr (by omega)
      have h2π : (2 * π : ℝ) ≠ 0 := mul_ne_zero two_ne_zero hπ
      have hij2 : (i:ℝ) - j = (n:ℝ) * N := by
        apply mul_left_cancel₀ h2π
        rw [show 2 * π * ((n:ℝ) * N) = (n:ℝ) * (2 * π) * N from by ring, ← hR]
        field_simp
      have hint : (i:ℤ) - j = n * N := by exact_mod_cast hij2
      have hiz : (i:ℤ) < N := by exact_mod_cast hi
      have hjz : (j:ℤ) < N := by exact_mod_cast hj
      rcases lt_trichotomy n 0 with hn0 | hn0 | hn0
      · have hb : n * (N:ℤ) ≤ -1 * N := by
          apply mul_le_mul_of_nonneg_right _ (by omega)
          omega
        omega
      · subst hn0
        simp at hint
        have : i = j := by omega
        exact hij this
      · have hb : 1 * (N:ℤ) ≤ n * N := by
          apply mul_le_mul_of_nonneg_right _ (by omega)
          omega
        omega
    rw [geom_sum_eq hzne N]
    have hzN : (w N 1 ^ i * w N (-1) ^ j) ^ N = 1 := by
      rw [mul_pow, ← pow_mul, ← pow_mul, Nat.mul_comm i N, Nat.mul_comm j N,
        pow_mul, pow_mul, w_pow_self N 1 hN, w_pow_self N (-1) hN, one_pow, one_pow, one_mul]
    rw [hzN]
    simp

/-- `FFT::dft` computes the forward DFT sum (kernel `w N (-1)`). -/
theorem dft_sum (p : ℕ) (hp : 1 ≤ p) (x : ℕ → ℂ) (k : ℕ) (hk : k < 2 ^ p) :
    dft (2 ^ p) x k = ∑ j ∈ Finset.range (2 ^ p), x j * w (2 ^ p) (-1) ^ (j * k) := by
  unfold dft
  refine radix4_bitrev (-1) (Or.inr rfl) p x (reindex (2 ^ p) x) ?_ k hk
  intro i hi
  rw [reindex_eq p hp x i, if_pos hi]

/-- `FFT::idft` computes the inverse (unscaled) DFT sum (kernel `w N 1`). -/
theorem idft_sum (p : ℕ) (hp : 1 ≤ p) (x : ℕ → ℂ) (k : ℕ) (hk : k < 2 ^ p) :
    idft (2 ^ p) x k = ∑ j ∈ Finset.range (2 ^ p), x j * w (2 ^ p) 1 ^ (j * k) := by
  unfold idft
  refine radix4_bitrev 1 (Or.inl rfl) p x (reindex (2 ^ p) x) ?_ k hk
  intro i hi
  rw [reindex_eq p hp x i, if_pos hi]

theorem dftOut_sum (p : ℕ) (hp : 1 ≤ p) (xin out0 : ℕ → ℂ) (k : ℕ) (hk : k < 2 ^ p) :
    dftOut (2 ^ p) xin out0 k =
      ∑ j ∈ Finset.range (2 ^ p), xin j * w (2 ^ p) (-1) ^ (j * k) := by
  unfold dftOut
  refine radix4_bitrev (-1) (Or.inr rfl) p xin (reindexOut (2 ^ p) xin out0) ?_ k hk
  intro i hi
  rw [reindexOut_eq p hp xin out0 i, if_pos hi]

theorem idftOut_sum (p : ℕ) (hp : 1 ≤ p) (xin out0 : ℕ → ℂ) (k : ℕ) (hk : k < 2 ^ p) :
    idftOut (2 ^ p) xin out0 k =
      ∑ j ∈ Finset.range (2 ^ p), xin j * w (2 ^ p) 1 ^ (j * k) := by
  unfold idftOut
  refine radix4_bitrev 1 (Or.inl rfl) p xin (reindexOut (2 ^ p) xin out0) ?_ k hk
  intro i hi
  rw [reindexOut_eq p hp xin out0 i, if_pos hi]

/-- Claim C1: for every power-of-two size `N = 2^p > 1`, the in-place forward
transform `FFT::dft` followed by the in-place inverse transform `FFT::idft`
and a `1/N` scale reproduces the original sequence exactly (over the exact
real-arithmetic embedding of the floating-point code). -/
theorem C1_round_trip (p : ℕ) (hp : 1 ≤ p) (x : ℕ → ℂ) (i : ℕ) (hi : i < 2 ^ p) :
    (((2:ℕ) ^ p : ℕ) : ℂ)⁻¹ * idft (2 ^ p) (dft (2 ^ p) x) i = x i := by
  have hN : (0:ℕ) < 2 ^ p := pow_pos (by norm_num) p
  rw [idft_sum p hp _ i hi]
  have hterm : ∀ k ∈ Finset.range (2 ^ p),
      dft (2 ^ p) x k * w (2 ^ p) 1 ^ (k * i) =
        ∑ j ∈ Finset.range (2 ^ p),
          x j * (w (2 ^ p) 1 ^ (k * i) * w (2 ^ p) (-1) ^ (j * k)) := by
    intro k hkr
    rw [dft_sum p hp x k (Finset.mem_range.mp hkr), Finset.sum_mul]
    apply Finset.sum_congr rfl
    intro j _
    ring
  rw [Finset.sum_congr rfl hterm, Finset.sum_comm]
  have hfac : ∀ j ∈ Finset.range (2 ^ p),
      (∑ k ∈ Finset.range (2 ^ p),
        x j * (w (2 ^ p) 1 ^ (k * i) * w (2 ^ p) (-1) ^ (j * k))) =
        if i = j then x j * ((2 ^ p : ℕ) : ℂ) else 0 := by
    intro j hjr
    rw [← Finset.mul_sum, sum_w_cross (2 ^ p) hN i j hi (Finset.mem_range.mp hjr)]
    by_cases hij : i = j
    · rw [if_pos hij, if_pos hij]
    · rw [if_neg hij, if_neg hij, mul_zero]
  rw [Finset.sum_congr rfl hfac,
    Finset.sum_ite_eq (Finset.range (2 ^ p)) i fun j => x j * ((2 ^ p : ℕ) : ℂ),
    if_pos (Finset.mem_range.mpr hi)]
  have hne : (((2:ℕ) ^ p : ℕ) : ℂ) ≠ 0 := by
    push_cast
    exact pow_ne_zero _ (by norm_num)
  field_simp

/-- Witness for C1 at `p = 1` with the concrete input `x j = j`. -/
theorem C1_round_trip_witness :
    1 ≤ 1 ∧ 0 < 2 ^ 1 ∧
      (((2:ℕ) ^ 1 : ℕ) : ℂ)⁻¹ *
        idft (2 ^ 1) (dft (2 ^ 1) fun j => (j:ℂ)) 0 = ((0:ℕ):ℂ) :=
  ⟨by norm_num, by norm_num, C1_round_trip 1 (by norm_num) (fun j => (j:ℂ)) 0 (by norm_num)⟩

/-- Claim C4: for every power-of-two size `N = 2^p ≥ 2`, the out-of-place
`reindex(in, out)`, `dft(in, out)` and `idft(in, out)` write into `out`
exactly what the in-place `reindex`, `dft` and `idft` produce on (a copy of)
`in`, at every position below `N` and for every prior contents of the output
buffer; the input buffer is untouched by construction of the embedding. -/
theorem C4_out_of_place (p : ℕ) (hp : 1 ≤ p) (xin out0 : ℕ → ℂ) (i : ℕ) (hi : i < 2 ^ p) :
    reindexOut (2 ^ p) xin out0 i = reindex (2 ^ p) xin i ∧
    dftOut (2 ^ p) xin out0 i = dft (2 ^ p) xin i ∧
    idftOut (2 ^ p) xin out0 i = idft (2 ^ p) xin i := by
  refine ⟨?_, ?_, ?_⟩
  · rw [reindexOut_eq p hp xin out0 i, reindex_eq p hp xin i, if_pos hi, if_pos hi]
  · rw [dftOut_sum p hp xin out0 i hi, dft_sum p hp xin i hi]
  · rw [idftOut_sum p hp xin out0 i hi, idft_sum p hp xin i hi]

/-- Witness for C4 at `p = 1`, `in j = j`, stale output contents `5`, `i = 1`. -/
theorem C4_out_of_place_witness :
    1 ≤ 1 ∧ 1 < 2 ^ 1 ∧
      (reindexOut (2 ^ 1) (fun j => (j:ℂ)) (fun _ => 5) 1 = reindex (2 ^ 1) (fun j => (j:ℂ)) 1 ∧
       dftOut (2 ^ 1) (fun j => (j:ℂ)) (fun _ => 5) 1 = dft (2 ^ 1) (fun j => (j:ℂ)) 1 ∧
       idftOut (2 ^ 1) (fun j => (j:ℂ)) (fun _ => 5) 1 = idft (2 ^ 1) (fun j => (j:ℂ)) 1) :=
  ⟨by norm_num, by norm_num,
    C4_out_of_place 1 (by norm_num) (fun j => (j:ℂ)) (fun _ => 5) 1 (by norm_num)⟩

/-- Claim C2 (amended): in the forward direction (`D = -1`) `rotate90` maps
`(x, y)` to `(y, -x)` (multiplication by `-i`), and in the inverse direction
(`D = +1`) it maps `(x, y)` to `(-y, x)` (multiplication by `i`), for every
input value. -/
theorem C2_rotate90_amended (z : ℂ) :
    direction (-1) z = ⟨z.im, -z.re⟩ ∧ direction 1 z = ⟨-z.im, z.re⟩ := by
  constructor <;> simp [direction]

end Dspp
